import Mathlib

/-!
Shallow embedding of the bill-splitter repository (Python) in Lean 4.

Python floats are modelled as exact rationals (`ℚ`); Python's `round(x, 2)`
(banker's rounding to two decimal digits) is modelled by `roundHE`, rounding
half to even.  Python `dict`s are modelled as insertion-ordered association
lists.  Fallible operations (`ZeroDivisionError`, `ValueError`) are modelled
with `Option` / error sums.
-/

/-- Round half to even (the rounding mode of Python's built-in `round`). -/
def roundHE (y : ℚ) : ℤ :=
  if Int.fract y < 1/2 then ⌊y⌋
  else if 1/2 < Int.fract y then ⌊y⌋ + 1
  else if ⌊y⌋ % 2 = 0 then ⌊y⌋ else ⌊y⌋ + 1

/-- From `core/utils/money.py`: `EPS = 1e-6`. -/
def EPS : ℚ := 1/1000000

/-- From `core/utils/money.py`: `qround(x)` = `round(x, 2)` with small values
clamped to `0.0` (the clamp only matters for the sign of zero in Python;
on exact rationals it is the identity on the rounded value). -/
def qround (x : ℚ) : ℚ :=
  if |(roundHE (100 * x) : ℚ) / 100| < EPS then 0 else (roundHE (100 * x) : ℚ) / 100

/-- Python's bare `round(v, 2)` as used in `Ledger.net_for`. -/
def round2 (x : ℚ) : ℚ := (roundHE (100 * x) : ℚ) / 100

/-- A rational that is a whole number of cents. -/
def IsCent (x : ℚ) : Prop := ∃ k : ℤ, x = (k : ℚ) / 100

lemma abs_sub_roundHE (y : ℚ) : |y - (roundHE y : ℚ)| ≤ 1/2 := by
  have h0 : 0 ≤ Int.fract y := Int.fract_nonneg y
  have h1 : Int.fract y < 1 := Int.fract_lt_one y
  have hf : Int.fract y = y - ⌊y⌋ := rfl
  unfold roundHE
  split_ifs with hlt hgt hpar <;>
    · rw [abs_le]
      push_cast
      constructor <;> linarith

lemma roundHE_eq_zero_iff (y : ℚ) : roundHE y = 0 ↔ |y| ≤ 1/2 := by
  constructor
  · intro h
    have := abs_sub_roundHE y
    rw [h] at this
    simpa using this
  · intro h
    rw [abs_le] at h
    have hf : Int.fract y = y - ⌊y⌋ := rfl
    by_cases hy : 0 ≤ y
    · have hfl : ⌊y⌋ = 0 := by
        rw [Int.floor_eq_iff]
        constructor
        · push_cast; exact hy
        · push_cast; linarith [h.2]
      have hfr : Int.fract y = y := by rw [hf, hfl]; push_cast; ring
      unfold roundHE
      rw [hfl, hfr]
      split_ifs with hlt hgt hpar
      · rfl
      · exfalso; linarith [h.2]
      · rfl
      · exfalso; exact hpar rfl
    · push_neg at hy
      have hfl : ⌊y⌋ = -1 := by
        rw [Int.floor_eq_iff]
        constructor
        · push_cast; linarith [h.1]
        · push_cast; linarith
      have hfr : Int.fract y = y + 1 := by rw [hf, hfl]; push_cast; ring
      unfold roundHE
      rw [hfl, hfr]
      split_ifs with hlt hgt hpar
      · exfalso; linarith [h.1]
      · decide
      · exfalso; omega
      · decide

lemma roundHE_intCast (m : ℤ) : roundHE (m : ℚ) = m := by
  unfold roundHE
  rw [Int.fract_intCast, Int.floor_intCast]
  norm_num

lemma roundHE_neg (y : ℚ) : roundHE (-y) = - roundHE y := by
  by_cases h0 : Int.fract y = 0
  · have hy : y = (⌊y⌋ : ℚ) := by
      have hf : Int.fract y = y - ⌊y⌋ := rfl
      rw [hf] at h0; linarith
    rw [hy]
    have : -(⌊y⌋ : ℚ) = ((-⌊y⌋ : ℤ) : ℚ) := by push_cast; ring
    rw [this, roundHE_intCast, roundHE_intCast]
  · have hfn : Int.fract (-y) = 1 - Int.fract y := Int.fract_neg h0
    have hfpos : 0 < Int.fract y := lt_of_le_of_ne (Int.fract_nonneg y) (Ne.symm h0)
    have hf1 : Int.fract y < 1 := Int.fract_lt_one y
    have hf : Int.fract y = y - ⌊y⌋ := rfl
    have hfl : ⌊-y⌋ = -⌊y⌋ - 1 := by
      rw [Int.floor_eq_iff]
      constructor
      · push_cast; linarith
      · push_cast; linarith
    unfold roundHE
    rw [hfn, hfl]
    split_ifs with h1 h2 h3 h4 h5 h6 h7 <;> first | omega | (exfalso; linarith)

example : roundHE (1/2) = 0 := by with_unfolding_all decide
example : roundHE (5/2) = 2 := by with_unfolding_all decide
example : roundHE (7/2) = 4 := by with_unfolding_all decide
example : roundHE (-5/2) = -2 := by with_unfolding_all decide
example : roundHE (67/2) = 34 := by with_unfolding_all decide
example : roundHE (10009/1000) = 10 := by with_unfolding_all decide

lemma round2_isCent (x : ℚ) : IsCent (round2 x) := ⟨roundHE (100 * x), rfl⟩

lemma qround_eq_round2 (x : ℚ) : qround x = round2 x := by
  unfold qround round2
  split_ifs with h
  · unfold EPS at h
    rw [abs_div, (show |(100:ℚ)| = 100 by norm_num)] at h
    have habs : |(roundHE (100 * x) : ℚ)| < 1/10000 := by linarith
    have hk0 : roundHE (100 * x) = 0 := by
      by_contra hne
      have h1 : (1 : ℚ) ≤ |(roundHE (100 * x) : ℚ)| := by
        rw [← Int.cast_abs]
        exact_mod_cast Int.one_le_abs hne
      linarith
    rw [hk0]
    norm_num
  · rfl

lemma isCent_qround (x : ℚ) : IsCent (qround x) := by
  rw [qround_eq_round2]; exact round2_isCent x

lemma round2_cent_id (x : ℚ) (h : IsCent x) : round2 x = x := by
  obtain ⟨k, rfl⟩ := h
  unfold round2
  have : (100 : ℚ) * ((k : ℚ) / 100) = (k : ℚ) := by field_simp
  rw [this, roundHE_intCast]

lemma qround_cent_id (x : ℚ) (h : IsCent x) : qround x = x := by
  rw [qround_eq_round2]; exact round2_cent_id x h

lemma round2_eq_zero_iff (x : ℚ) : round2 x = 0 ↔ |x| ≤ 1/200 := by
  unfold round2
  have h100 : |(100 : ℚ)| = 100 := by norm_num
  constructor
  · intro h
    have hk : roundHE (100 * x) = 0 := by
      rcases div_eq_zero_iff.mp h with h' | h'
      · exact_mod_cast h'
      · norm_num at h'
    have h2 := (roundHE_eq_zero_iff (100 * x)).mp hk
    rw [abs_mul, h100] at h2
    linarith
  · intro h
    have h2 : |100 * x| ≤ 1/2 := by
      rw [abs_mul, h100]; linarith
    rw [(roundHE_eq_zero_iff (100 * x)).mpr h2]
    norm_num

lemma qround_eq_zero_iff (x : ℚ) : qround x = 0 ↔ |x| ≤ 1/200 := by
  rw [qround_eq_round2]; exact round2_eq_zero_iff x

lemma round2_neg (x : ℚ) : round2 (-x) = - round2 x := by
  unfold round2
  have : (100 : ℚ) * -x = -(100 * x) := by ring
  rw [this, roundHE_neg]
  push_cast
  ring

lemma cent_abs_ge (d : ℚ) (h : IsCent d) (h0 : d ≠ 0) : 1/100 ≤ |d| := by
  obtain ⟨k, rfl⟩ := h
  have hk : k ≠ 0 := by
    intro hk0; rw [hk0] at h0; norm_num at h0
  have h1 : (1 : ℚ) ≤ |(k : ℚ)| := by
    rw [← Int.cast_abs]
    exact_mod_cast Int.one_le_abs hk
  rw [abs_div, abs_of_nonneg (by norm_num : (0:ℚ) ≤ 100)]
  rw [le_div_iff (by norm_num : (0:ℚ) < 100)]
  linarith

lemma abs_sub_round2 (x : ℚ) : |x - round2 x| ≤ 1/200 := by
  unfold round2
  have h := abs_sub_roundHE (100 * x)
  have : x - (roundHE (100 * x) : ℚ) / 100 = (100 * x - (roundHE (100 * x) : ℚ)) / 100 := by
    ring
  rw [this, abs_div, abs_of_nonneg (by norm_num : (0:ℚ) ≤ 100)]
  rw [div_le_iff (by norm_num : (0:ℚ) < 100)]
  linarith

lemma abs_sub_qround (x : ℚ) : |x - qround x| ≤ 1/200 := by
  rw [qround_eq_round2]; exact abs_sub_round2 x

lemma IsCent.add {x y : ℚ} (hx : IsCent x) (hy : IsCent y) : IsCent (x + y) := by
  obtain ⟨k, rfl⟩ := hx
  obtain ⟨m, rfl⟩ := hy
  exact ⟨k + m, by push_cast; ring⟩

lemma IsCent.neg {x : ℚ} (hx : IsCent x) : IsCent (-x) := by
  obtain ⟨k, rfl⟩ := hx
  exact ⟨-k, by push_cast; ring⟩

lemma IsCent.sub {x y : ℚ} (hx : IsCent x) (hy : IsCent y) : IsCent (x - y) := by
  rw [sub_eq_add_neg]; exact hx.add hy.neg

lemma isCent_zero : IsCent 0 := ⟨0, by norm_num⟩

lemma isCent_sum (l : List ℚ) (h : ∀ x ∈ l, IsCent x) : IsCent l.sum := by
  induction l with
  | nil => simpa using isCent_zero
  | cons a t ih =>
      rw [List.sum_cons]
      exact (h a (by simp)).add (ih fun x hx => h x (by simp [hx]))

/-!
### Split strategies (`core/models/splits.py`)

Participant mappings (Python `dict`s) are insertion-ordered association
lists with unique keys.
-/

/-- The remainder-redistribution loop shared by `EqualSplit.split` and
`ShareSplit.split`:
`while abs(diff) >= 0.01 - EPS and i < 1000: idx = i % n; ...`.
`fuel` is the number of loop iterations still allowed (`1000 - i`);
`none` models Python's `ZeroDivisionError` from `i % n` when `n = 0`. -/
def adjustGo (amount step : ℚ) (n : ℕ) : ℕ → ℕ → List ℚ → Option (List ℚ)
  | 0, _, shares => some shares
  | fuel + 1, i, shares =>
    if 1/100 - EPS ≤ |qround (amount - shares.sum)| then
      if n = 0 then none
      else
        adjustGo amount step n fuel (i + 1)
          (shares.set (i % n) (qround (shares.getD (i % n) 0 + step)))
    else some shares

/-- From `core/models/splits.py`, `EqualSplit.split`: equal share per participant, rounded, then the
remainder is redistributed a cent at a time.  `none` models the
`ZeroDivisionError` raised by `amount / n` on an empty mapping. -/
def EqualSplit.split (amount : ℚ) (participants : List (String × ℚ)) :
    Option (List (String × ℚ)) :=
  let users := participants.map Prod.fst
  let n := users.length
  if n = 0 then none
  else
    let base := amount / (n : ℚ)
    let shares := users.map (fun _ => qround base)
    let diff := qround (amount - shares.sum)
    let step : ℚ := if 0 < diff then 1/100 else -(1/100)
    (adjustGo amount step n 1000 0 shares).map (fun s => users.zip s)

/-- From `core/models/splits.py`, `ExactSplit.split`: validate `abs(total - amount) > 0.01 + EPS`
(`none` models the raised `ValueError`), otherwise return each
caller-specified weight rounded to currency precision. -/
def ExactSplit.split (amount : ℚ) (participants : List (String × ℚ)) :
    Option (List (String × ℚ)) :=
  let total := (participants.map Prod.snd).sum
  if 1/100 + EPS < |total - amount| then none
  else some (participants.map (fun p => (p.1, qround p.2)))

/-- From `core/models/splits.py`, `ShareSplit.split`: all weights must be positive (`none` models the
raised `ValueError`), shares are proportional to weights, rounded, then
fixed by the same remainder loop as `EqualSplit`. -/
def ShareSplit.split (amount : ℚ) (participants : List (String × ℚ)) :
    Option (List (String × ℚ)) :=
  if participants.any (fun p => p.2 ≤ 0) then none
  else
    let total_w := (participants.map Prod.snd).sum
    let raw := participants.map (fun p => (p.1, amount * (p.2 / total_w)))
    let users := raw.map Prod.fst
    let shares := raw.map (fun p => qround p.2)
    let diff := qround (amount - shares.sum)
    let step : ℚ := if 0 < diff then 1/100 else -(1/100)
    (adjustGo amount step users.length 1000 0 shares).map (fun s => users.zip s)

set_option maxRecDepth 4000 in
example : EqualSplit.split 10 [("a", 1), ("b", 1), ("c", 1)] =
    some [("a", 334/100), ("b", 333/100), ("c", 333/100)] := by
  with_unfolding_all decide

example : ExactSplit.split 50 [("you", 20), ("other", 30)] =
    some [("you", 20), ("other", 30)] := by with_unfolding_all decide

set_option maxRecDepth 4000 in
example : ShareSplit.split 100 [("you", 1), ("other", 3)] =
    some [("you", 25), ("other", 75)] := by with_unfolding_all decide

lemma adjustGo_isSome (amount step : ℚ) (n : ℕ) (hn : n ≠ 0) :
    ∀ (fuel i : ℕ) (shares : List ℚ),
      ∃ s, adjustGo amount step n fuel i shares = some s ∧
        s.length = shares.length := by
  intro fuel
  induction fuel with
  | zero => exact fun i shares => ⟨shares, rfl, rfl⟩
  | succ f ih =>
    intro i shares
    by_cases hcond : 1/100 - EPS ≤ |qround (amount - shares.sum)|
    · obtain ⟨s, hs, hl⟩ :=
        ih (i + 1) (shares.set (i % n) (qround (shares.getD (i % n) 0 + step)))
      refine ⟨s, ?_, by simpa using hl⟩
      simp only [adjustGo]
      rw [if_pos hcond, if_neg hn]
      exact hs
    · refine ⟨shares, ?_, rfl⟩
      simp only [adjustGo]
      rw [if_neg hcond]

lemma adjustGo_sum (amount σ r : ℚ) (hσ : σ = 1 ∨ σ = -1)
    (hr1 : -(1/200) < r) (hr2 : r ≤ 1/200) :
    ∀ (fuel i : ℕ) (shares : List ℚ) (c : ℕ),
      shares ≠ [] → (∀ x ∈ shares, IsCent x) →
      σ * (amount - shares.sum) = (c : ℚ)/100 + r →
      ∃ s, adjustGo amount (σ * (1/100)) shares.length fuel i shares = some s ∧
        s.sum = shares.sum + σ * ((min fuel c : ℕ) : ℚ) / 100 ∧
        s.length = shares.length := by
  have hσ2 : σ * σ = 1 := by rcases hσ with h | h <;> rw [h] <;> norm_num
  have hσabs : |σ| = 1 := by rcases hσ with h | h <;> rw [h] <;> norm_num
  intro fuel
  induction fuel with
  | zero =>
    intro i shares c hne hcent hsum
    exact ⟨shares, rfl, by simp, rfl⟩
  | succ f ih =>
    intro i shares c hne hcent hsum
    have hn : shares.length ≠ 0 := by simpa using hne
    cases c with
    | zero =>
      have hsum0 : σ * (amount - shares.sum) = r := by simpa using hsum
      have ht : amount - shares.sum = σ * r := by
        calc amount - shares.sum = (σ * σ) * (amount - shares.sum) := by rw [hσ2]; ring
          _ = σ * (σ * (amount - shares.sum)) := by ring
          _ = σ * r := by rw [hsum0]
      have htabs : |amount - shares.sum| ≤ 1/200 := by
        rw [ht, abs_mul, hσabs, one_mul, abs_le]
        constructor <;> linarith
      have hdiff : qround (amount - shares.sum) = 0 := (qround_eq_zero_iff _).mpr htabs
      refine ⟨shares, ?_, by simp, rfl⟩
      simp only [adjustGo]
      rw [hdiff]
      rw [if_neg (by norm_num [EPS] : ¬ ((1:ℚ)/100 - EPS ≤ |(0:ℚ)|))]
    | succ c' =>
      have hgt : 1/200 < |amount - shares.sum| := by
        have h1 : (1:ℚ)/200 < σ * (amount - shares.sum) := by
          rw [hsum]; push_cast; linarith [Nat.cast_nonneg (α := ℚ) c']
        calc (1:ℚ)/200 < σ * (amount - shares.sum) := h1
          _ ≤ |σ * (amount - shares.sum)| := le_abs_self _
          _ = |amount - shares.sum| := by rw [abs_mul, hσabs, one_mul]
      have hd0 : qround (amount - shares.sum) ≠ 0 := by
        rw [Ne, qround_eq_zero_iff]; push_neg; exact hgt
      have hdge : 1/100 ≤ |qround (amount - shares.sum)| :=
        cent_abs_ge _ (isCent_qround _) hd0
      have hcond : 1/100 - EPS ≤ |qround (amount - shares.sum)| := by
        have hE : (0:ℚ) < EPS := by norm_num [EPS]
        linarith
      have hlt : i % shares.length < shares.length :=
        Nat.mod_lt _ (Nat.pos_of_ne_zero hn)
      have hold : shares.getD (i % shares.length) 0 = shares[i % shares.length] :=
        List.getD_eq_getElem shares 0 hlt
      have hcold : IsCent shares[i % shares.length] := hcent _ (List.getElem_mem hlt)
      have hcstep : IsCent (σ * (1/100)) := by
        rcases hσ with h | h <;> rw [h]
        · exact ⟨1, by norm_num⟩
        · exact ⟨-1, by push_cast; norm_num⟩
      have hnew : qround (shares.getD (i % shares.length) 0 + σ * (1/100)) =
          shares[i % shares.length] + σ * (1/100) := by
        rw [hold]; exact qround_cent_id _ (hcold.add hcstep)
      have hs1len : (shares.set (i % shares.length)
          (qround (shares.getD (i % shares.length) 0 + σ * (1/100)))).length =
          shares.length := by simp
      have hdecomp : shares.sum = (shares.take (i % shares.length)).sum +
          shares[i % shares.length] + (shares.drop (i % shares.length + 1)).sum := by
        conv_lhs => rw [← List.sum_take_add_sum_drop shares (i % shares.length)]
        rw [List.drop_eq_getElem_cons hlt, List.sum_cons]
        ring
      have hs1sum : (shares.set (i % shares.length)
          (qround (shares.getD (i % shares.length) 0 + σ * (1/100)))).sum =
          shares.sum + σ * (1/100) := by
        rw [hnew, List.sum_set, if_pos hlt]
        conv_rhs => rw [hdecomp]
        ring
      have hs1ne : shares.set (i % shares.length)
          (qround (shares.getD (i % shares.length) 0 + σ * (1/100))) ≠ [] := by
        intro h
        apply hne
        apply List.length_eq_zero.mp
        rw [← hs1len, h]
        rfl
      have hs1cent : ∀ x ∈ shares.set (i % shares.length)
          (qround (shares.getD (i % shares.length) 0 + σ * (1/100))), IsCent x := by
        intro x hx
        rcases List.mem_or_eq_of_mem_set hx with h | h
        · exact hcent x h
        · rw [h]; exact isCent_qround _
      have hs1sum2 : σ * (amount - (shares.set (i % shares.length)
          (qround (shares.getD (i % shares.length) 0 + σ * (1/100)))).sum) =
          ((c' : ℕ) : ℚ)/100 + r := by
        rw [hs1sum]
        have hexp : σ * (amount - (shares.sum + σ * (1/100))) =
            σ * (amount - shares.sum) - σ * σ * (1/100) := by ring
        rw [hexp, hσ2, hsum]
        push_cast
        ring
      obtain ⟨s, hs, hsum', hlen'⟩ := ih (i + 1)
        (shares.set (i % shares.length)
          (qround (shares.getD (i % shares.length) 0 + σ * (1/100))))
        c' hs1ne hs1cent hs1sum2
      rw [hs1len] at hs hlen'
      refine ⟨s, ?_, ?_, hlen'⟩
      · simp only [adjustGo]
        rw [if_pos hcond, if_neg hn]
        exact hs
      · rw [hsum', hs1sum, Nat.succ_min_succ]
        push_cast
        ring

lemma roundHE_one_le_iff (y : ℚ) : 1 ≤ roundHE y ↔ 1/2 < y := by
  constructor
  · intro h
    have hb := abs_sub_roundHE y
    rw [abs_le] at hb
    have h1 : (1 : ℚ) ≤ (roundHE y : ℚ) := by exact_mod_cast h
    rcases lt_or_eq_of_le (by linarith [hb.1] : (1:ℚ)/2 ≤ y) with h2 | h2
    · exact h2
    · exfalso
      have : roundHE y = 0 := (roundHE_eq_zero_iff y).mpr (by
        rw [← h2, abs_of_nonneg (by norm_num : (0:ℚ) ≤ 1/2)])
      omega
  · intro h
    have hb := abs_sub_roundHE y
    rw [abs_le] at hb
    have : (0 : ℚ) < (roundHE y : ℚ) := by linarith [hb.2]
    have : 0 < roundHE y := by exact_mod_cast this
    omega

lemma round2_pos_iff (x : ℚ) : 0 < round2 x ↔ 1/200 < x := by
  unfold round2
  constructor
  · intro h
    have hk : 0 < roundHE (100 * x) := by
      by_contra hk
      push_neg at hk
      have : ((roundHE (100 * x) : ℤ) : ℚ) ≤ 0 := by exact_mod_cast hk
      have : (roundHE (100 * x) : ℚ) / 100 ≤ 0 := by
        apply div_nonpos_of_nonpos_of_nonneg this (by norm_num)
      linarith
    have := (roundHE_one_le_iff (100 * x)).mp (by omega)
    linarith
  · intro h
    have := (roundHE_one_le_iff (100 * x)).mpr (by linarith)
    have h1 : (1 : ℚ) ≤ (roundHE (100 * x) : ℚ) := by exact_mod_cast this
    linarith

lemma qround_pos_iff (x : ℚ) : 0 < qround x ↔ 1/200 < x := by
  rw [qround_eq_round2]; exact round2_pos_iff x

lemma qround_neg (x : ℚ) : qround (-x) = - qround x := by
  rw [qround_eq_round2, qround_eq_round2]; exact round2_neg x

lemma qround_neg_iff (x : ℚ) : qround x < 0 ↔ x < -(1/200) := by
  constructor
  · intro h
    have h2 : 0 < qround (-x) := by rw [qround_neg]; linarith
    have := (qround_pos_iff (-x)).mp h2
    linarith
  · intro h
    have h2 : 1/200 < -x := by linarith
    have := (qround_pos_iff (-x)).mpr h2
    rw [qround_neg] at this
    linarith

lemma sum_replicate_append (a b : ℕ) (x y : ℚ) :
    (List.replicate a x ++ List.replicate b y).sum = (a : ℚ) * x + (b : ℚ) * y := by
  simp [List.sum_append, List.sum_replicate, nsmul_eq_mul]

lemma set_append_cons_length {α : Type} (l₁ l₂ : List α) (x v : α) :
    (l₁ ++ x :: l₂).set l₁.length v = l₁ ++ v :: l₂ := by
  induction l₁ with
  | nil => rfl
  | cons a t ih => simpa [List.set_cons_succ] using ih

lemma exists_cent_decomp (t : ℚ) (h : 1/200 < t) :
    ∃ (c : ℕ) (r : ℚ), 1 ≤ c ∧ -(1/200) < r ∧ r ≤ 1/200 ∧
      t = (c : ℚ)/100 + r ∧ (c : ℚ) ≤ 100 * t + 1/2 := by
  have h1 : (100 * t - 1/2 : ℚ) ≤ ⌈(100 * t - 1/2 : ℚ)⌉ := Int.le_ceil _
  have h2 : ((⌈(100 * t - 1/2 : ℚ)⌉ : ℤ) : ℚ) < 100 * t - 1/2 + 1 := Int.ceil_lt_add_one _
  have hpos : 0 < ⌈(100 * t - 1/2 : ℚ)⌉ := by
    rw [Int.lt_ceil]
    push_cast
    linarith
  have htn : (⌈(100 * t - 1/2 : ℚ)⌉.toNat : ℤ) = ⌈(100 * t - 1/2 : ℚ)⌉ :=
    Int.toNat_of_nonneg hpos.le
  have hcast : ((⌈(100 * t - 1/2 : ℚ)⌉.toNat : ℕ) : ℚ) = ((⌈(100 * t - 1/2 : ℚ)⌉ : ℤ) : ℚ) := by
    calc ((⌈(100 * t - 1/2 : ℚ)⌉.toNat : ℕ) : ℚ) =
        (((⌈(100 * t - 1/2 : ℚ)⌉.toNat : ℕ) : ℤ) : ℚ) := by push_cast; ring
      _ = ((⌈(100 * t - 1/2 : ℚ)⌉ : ℤ) : ℚ) := by rw [htn]
  refine ⟨⌈(100 * t - 1/2 : ℚ)⌉.toNat, t - ((⌈(100 * t - 1/2 : ℚ)⌉.toNat : ℕ) : ℚ)/100,
    ?_, ?_, ?_, by ring, ?_⟩
  · omega
  · rw [hcast]; linarith
  · rw [hcast]; linarith
  · rw [hcast]; linarith

lemma sum_map_qround_bound (l : List ℚ) :
    |l.sum - (l.map qround).sum| ≤ (l.length : ℚ)/200 := by
  induction l with
  | nil => simp
  | cons a t ih =>
    simp only [List.map_cons, List.sum_cons, List.length_cons]
    have h1 := abs_sub_qround a
    have hdec : a + t.sum - (qround a + (t.map qround).sum) =
        (a - qround a) + (t.sum - (t.map qround).sum) := by ring
    rw [hdec]
    calc |(a - qround a) + (t.sum - (t.map qround).sum)| ≤
        |a - qround a| + |t.sum - (t.map qround).sum| := abs_add _ _
      _ ≤ 1/200 + (t.length : ℚ)/200 := add_le_add h1 ih
      _ = ((t.length : ℚ) + 1)/200 := by ring
      _ = (((t.length + 1 : ℕ)) : ℚ)/200 := by push_cast; ring

lemma adjustGo_replicate (amount σ q r : ℚ) (hσ : σ = 1 ∨ σ = -1) (hq : IsCent q)
    (hr1 : -(1/200) < r) (hr2 : r ≤ 1/200) :
    ∀ (fuel a b c : ℕ),
      σ * (amount - (List.replicate a (q + σ * (1/100)) ++ List.replicate b q).sum) =
        (c : ℚ)/100 + r →
      min fuel c ≤ b →
      adjustGo amount (σ * (1/100)) (a + b) fuel a
          (List.replicate a (q + σ * (1/100)) ++ List.replicate b q) =
        some (List.replicate (a + min fuel c) (q + σ * (1/100)) ++
          List.replicate (b - min fuel c) q) := by
  have hσ2 : σ * σ = 1 := by rcases hσ with h | h <;> rw [h] <;> norm_num
  have hσabs : |σ| = 1 := by rcases hσ with h | h <;> rw [h] <;> norm_num
  have hcstep : IsCent (σ * (1/100)) := by
    rcases hσ with h | h <;> rw [h]
    · exact ⟨1, by norm_num⟩
    · exact ⟨-1, by push_cast; norm_num⟩
  intro fuel
  induction fuel with
  | zero =>
    intro a b c hsum hmin
    simp [adjustGo]
  | succ f ih =>
    intro a b c hsum hmin
    cases c with
    | zero =>
      have hsum0 : σ * (amount -
          (List.replicate a (q + σ * (1/100)) ++ List.replicate b q).sum) = r := by
        simpa using hsum
      have ht : amount - (List.replicate a (q + σ * (1/100)) ++ List.replicate b q).sum
          = σ * r := by
        calc amount - (List.replicate a (q + σ * (1/100)) ++ List.replicate b q).sum
            = (σ * σ) * (amount -
              (List.replicate a (q + σ * (1/100)) ++ List.replicate b q).sum) := by
                rw [hσ2]; ring
          _ = σ * (σ * (amount -
              (List.replicate a (q + σ * (1/100)) ++ List.replicate b q).sum)) := by ring
          _ = σ * r := by rw [hsum0]
      have htabs : |amount -
          (List.replicate a (q + σ * (1/100)) ++ List.replicate b q).sum| ≤ 1/200 := by
        rw [ht, abs_mul, hσabs, one_mul, abs_le]
        constructor <;> linarith
      have hdiff : qround (amount -
          (List.replicate a (q + σ * (1/100)) ++ List.replicate b q).sum) = 0 :=
        (qround_eq_zero_iff _).mpr htabs
      simp only [adjustGo, hdiff]
      rw [if_neg (by norm_num [EPS] : ¬ ((1:ℚ)/100 - EPS ≤ |(0:ℚ)|))]
      simp
    | succ c' =>
      have hminEq : min (f+1) (c'+1) = min f c' + 1 := Nat.succ_min_succ f c'
      have hb : 1 ≤ b := by omega
      obtain ⟨b', rfl⟩ : ∃ b'', b = b'' + 1 := ⟨b - 1, by omega⟩
      have hgt : 1/200 < |amount -
          (List.replicate a (q + σ * (1/100)) ++ List.replicate (b'+1) q).sum| := by
        have h1 : (1:ℚ)/200 < σ * (amount -
            (List.replicate a (q + σ * (1/100)) ++ List.replicate (b'+1) q).sum) := by
          rw [hsum]; push_cast; linarith [Nat.cast_nonneg (α := ℚ) c']
        calc (1:ℚ)/200 < σ * (amount -
            (List.replicate a (q + σ * (1/100)) ++ List.replicate (b'+1) q).sum) := h1
          _ ≤ |σ * (amount -
            (List.replicate a (q + σ * (1/100)) ++ List.replicate (b'+1) q).sum)| :=
              le_abs_self _
          _ = |amount -
            (List.replicate a (q + σ * (1/100)) ++ List.replicate (b'+1) q).sum| := by
              rw [abs_mul, hσabs, one_mul]
      have hd0 : qround (amount -
          (List.replicate a (q + σ * (1/100)) ++ List.replicate (b'+1) q).sum) ≠ 0 := by
        rw [Ne, qround_eq_zero_iff]; push_neg; exact hgt
      have hcond : 1/100 - EPS ≤ |qround (amount -
          (List.replicate a (q + σ * (1/100)) ++ List.replicate (b'+1) q).sum)| := by
        have hE : (0:ℚ) < EPS := by norm_num [EPS]
        linarith [cent_abs_ge _ (isCent_qround (amount -
          (List.replicate a (q + σ * (1/100)) ++ List.replicate (b'+1) q).sum)) hd0]
      have hn : a + (b'+1) ≠ 0 := by omega
      have hidx : a % (a + (b'+1)) = a := Nat.mod_eq_of_lt (by omega)
      have hgetD : (List.replicate a (q + σ * (1/100)) ++
          List.replicate (b'+1) q).getD a 0 = q := by
        have := List.getD_append_right (List.replicate a (q + σ * (1/100)))
          (List.replicate (b'+1) q) 0 a (by rw [List.length_replicate])
        rw [this, List.length_replicate, Nat.sub_self, List.replicate_succ]
        rfl
      have hnewval : qround (q + σ * (1/100)) = q + σ * (1/100) :=
        qround_cent_id _ (hq.add hcstep)
      have hset : (List.replicate a (q + σ * (1/100)) ++
          List.replicate (b'+1) q).set a (q + σ * (1/100)) =
          List.replicate (a+1) (q + σ * (1/100)) ++ List.replicate b' q := by
        rw [List.replicate_succ q b']
        have hsc := set_append_cons_length (List.replicate a (q + σ * (1/100)))
          (List.replicate b' q) q (q + σ * (1/100))
        rw [List.length_replicate] at hsc
        rw [hsc, List.replicate_succ' a (q + σ * (1/100)), List.append_assoc]
        rfl
      have hsum' : σ * (amount - (List.replicate (a+1) (q + σ * (1/100)) ++
          List.replicate b' q).sum) = ((c' : ℕ) : ℚ)/100 + r := by
        rw [sum_replicate_append] at hsum ⊢
        push_cast at hsum ⊢
        nlinarith [hsum, hσ2]
      have hmin' : min f c' ≤ b' := by omega
      have hrec := ih (a+1) b' c' hsum' hmin'
      rw [(by omega : (a+1) + b' = a + (b'+1))] at hrec
      simp only [adjustGo]
      rw [if_pos hcond]
      rw [if_neg hn]
      rw [hidx, hgetD, hnewval, hset, hminEq]
      rw [(by omega : a + (min f c' + 1) = (a+1) + min f c'),
        (by omega : (b'+1) - (min f c' + 1) = b' - min f c')]
      exact hrec

lemma adjustGo_stop (amount step : ℚ) (n : ℕ) (fuel i : ℕ) (shares : List ℚ)
    (h : qround (amount - shares.sum) = 0) :
    adjustGo amount step n fuel i shares = some shares := by
  cases fuel with
  | zero => rfl
  | succ f =>
    simp only [adjustGo, h]
    rw [if_neg (by norm_num [EPS] : ¬ ((1:ℚ)/100 - EPS ≤ |(0:ℚ)|))]

lemma abs_equal_base_remainder (amount : ℚ) (n : ℕ) (hn : n ≠ 0) :
    |amount - (List.replicate n (qround (amount / (n : ℚ)))).sum| ≤ (n : ℚ)/200 := by
  have hcast : ((n : ℕ) : ℚ) ≠ 0 := Nat.cast_ne_zero.mpr hn
  have hsum0 : (List.replicate n (qround (amount / (n : ℚ)))).sum =
      (n : ℚ) * qround (amount / (n : ℚ)) := by
    simp [List.sum_replicate, nsmul_eq_mul]
  have hself : (n : ℚ) * (amount / (n : ℚ)) = amount := by field_simp
  have key : amount - (List.replicate n (qround (amount / (n : ℚ)))).sum =
      (n : ℚ) * (amount / (n : ℚ) - qround (amount / (n : ℚ))) := by
    rw [hsum0, mul_sub, hself]
  rw [key, abs_mul, abs_of_nonneg (Nat.cast_nonneg n)]
  calc (n : ℚ) * |amount / (n : ℚ) - qround (amount / (n : ℚ))|
      ≤ (n : ℚ) * (1/200) :=
        mul_le_mul_of_nonneg_left (abs_sub_qround _) (Nat.cast_nonneg n)
    _ = (n : ℚ)/200 := by ring

lemma fix_core (amount q : ℚ) (hq : IsCent q) (n : ℕ) (hn : n ≠ 0)
    (habs : |amount - (List.replicate n q).sum| ≤ (n : ℚ)/200) :
    ∃ s, adjustGo amount
        (if 0 < qround (amount - (List.replicate n q).sum) then (1:ℚ)/100 else -(1/100))
        n 1000 0 (List.replicate n q) = some s ∧
      s.length = n ∧ ∀ x ∈ s, ∀ y ∈ s, x - y ≤ 1/100 := by
  by_cases hd0 : qround (amount - (List.replicate n q).sum) = 0
  · refine ⟨List.replicate n q, adjustGo_stop _ _ _ _ _ _ hd0, by simp, ?_⟩
    intro x hx y hy
    rw [List.eq_of_mem_replicate hx, List.eq_of_mem_replicate hy]
    norm_num
  · have h1 : 1 ≤ n := Nat.pos_of_ne_zero hn
    set t := amount - (List.replicate n q).sum with htdef
    set σ : ℚ := if 0 < qround t then 1 else -1 with hσdef
    have hσ : σ = 1 ∨ σ = -1 := by
      rw [hσdef]; split_ifs <;> simp
    have hstep : (if 0 < qround t then (1:ℚ)/100 else -(1/100)) = σ * (1/100) := by
      rw [hσdef]; split_ifs <;> ring
    have hσt : 1/200 < σ * t := by
      rw [hσdef]
      split_ifs with hp
      · rw [one_mul]
        exact (qround_pos_iff t).mp hp
      · have hlt : qround t < 0 := lt_of_le_of_ne (not_lt.mp hp) hd0
        have := (qround_neg_iff t).mp hlt
        linarith
    have hσabs : |σ * t| = |t| := by
      rcases hσ with h | h <;> rw [h] <;> simp
    clear_value t σ
    obtain ⟨c, r, hc1, hr1, hr2, hdecomp, hcbound⟩ := exists_cent_decomp (σ * t) hσt
    have hσt_le : σ * t ≤ (n : ℚ)/200 :=
      calc σ * t ≤ |σ * t| := le_abs_self _
        _ = |t| := hσabs
        _ ≤ (n : ℚ)/200 := habs
    have hcn : c ≤ n := by
      have hle : (c : ℚ) ≤ (n : ℚ)/2 + 1/2 := by linarith
      have h2c : (2 * c : ℚ) ≤ (n : ℚ) + 1 := by linarith
      have h2c' : 2 * c ≤ n + 1 := by exact_mod_cast h2c
      omega
    have hmin : min 1000 c ≤ n := le_trans (min_le_right _ _) hcn
    have happ := adjustGo_replicate amount σ q r hσ hq hr1 hr2 1000 0 n c
      (by
        simp only [List.replicate_zero, List.nil_append]
        rw [← htdef]
        exact hdecomp)
      hmin
    simp only [List.replicate_zero, List.nil_append, Nat.zero_add] at happ
    refine ⟨List.replicate (min 1000 c) (q + σ * (1/100)) ++
      List.replicate (n - min 1000 c) q, ?_, ?_, ?_⟩
    · rw [hstep]
      exact happ
    · simp only [List.length_append, List.length_replicate]
      omega
    · intro x hx y hy
      have hmem : ∀ z, z ∈ List.replicate (min 1000 c) (q + σ * (1/100)) ++
          List.replicate (n - min 1000 c) q → z = q + σ * (1/100) ∨ z = q := by
        intro z hz
        rcases List.mem_append.mp hz with h | h
        · exact Or.inl (List.eq_of_mem_replicate h)
        · exact Or.inr (List.eq_of_mem_replicate h)
      rcases hmem x hx with h | h <;> rcases hmem y hy with h' | h' <;>
        rw [h, h'] <;> rcases hσ with hs | hs <;> subst hs <;> norm_num

lemma EqualSplit.equal_split_unfold (amount : ℚ) (ps : List (String × ℚ)) (hne : ps ≠ []) :
    EqualSplit.split amount ps =
      (adjustGo amount
        (if 0 < qround (amount -
            (List.replicate ps.length (qround (amount / (ps.length : ℚ)))).sum)
          then (1:ℚ)/100 else -(1/100))
        ps.length 1000 0
        (List.replicate ps.length (qround (amount / (ps.length : ℚ))))).map
        (fun s => (ps.map Prod.fst).zip s) := by
  have hn0 : ps.length ≠ 0 := fun h => hne (List.length_eq_zero.mp h)
  simp only [EqualSplit.split, List.length_map, List.map_const']
  rw [if_neg hn0]

/-- Claim C9 — Equal-split fairness bound: for Equal mode with a positive
amount and non-empty participants, the split succeeds and any two returned
allocations differ by at most one cent (hence max − min ≤ 0.01). -/
theorem equal_split_fairness_bound (amount : ℚ) (ps : List (String × ℚ))
    (hpos : 0 < amount) (hne : ps ≠ []) :
    ∃ alloc, EqualSplit.split amount ps = some alloc ∧
      ∀ x ∈ alloc, ∀ y ∈ alloc, x.2 - y.2 ≤ 1/100 := by
  have hn0 : ps.length ≠ 0 := fun h => hne (List.length_eq_zero.mp h)
  obtain ⟨s, hs, hlen, hfair⟩ := fix_core amount (qround (amount / (ps.length : ℚ)))
    (isCent_qround _) ps.length hn0 (abs_equal_base_remainder amount ps.length hn0)
  refine ⟨(ps.map Prod.fst).zip s, ?_, ?_⟩
  · rw [EqualSplit.equal_split_unfold amount ps hne, hs]
    rfl
  · intro x hx y hy
    obtain ⟨x1, x2⟩ := x
    obtain ⟨y1, y2⟩ := y
    exact hfair _ (List.of_mem_zip hx).2 _ (List.of_mem_zip hy).2

/-- Witness for C9 at a concrete input (the spec's scenario 5). -/
theorem equal_split_fairness_bound_witness :
    (0:ℚ) < 10 ∧ ([("a", (1:ℚ)), ("b", 1), ("c", 1)]) ≠ [] ∧
    ∃ alloc, EqualSplit.split 10 [("a", 1), ("b", 1), ("c", 1)] = some alloc ∧
      ∀ x ∈ alloc, ∀ y ∈ alloc, x.2 - y.2 ≤ 1/100 :=
  ⟨by norm_num, by simp,
    equal_split_fairness_bound 10 [("a", 1), ("b", 1), ("c", 1)] (by norm_num) (by simp)⟩

/-- Claim C10 — `EqualSplit.split` divides by `len(participants)` with no
guard: the empty mapping is a division-by-zero fault (modelled `none`), and
every non-empty mapping yields an allocation covering exactly the given
participants, in order. -/
theorem equal_split_totality :
    (∀ amount : ℚ, EqualSplit.split amount [] = none) ∧
    (∀ (amount : ℚ) (ps : List (String × ℚ)), ps ≠ [] →
      ∃ alloc, EqualSplit.split amount ps = some alloc ∧
        alloc.map Prod.fst = ps.map Prod.fst) := by
  constructor
  · intro amount
    rfl
  · intro amount ps hne
    have hn0 : ps.length ≠ 0 := fun h => hne (List.length_eq_zero.mp h)
    obtain ⟨s, hs, hlen⟩ := adjustGo_isSome amount
      (if 0 < qround (amount -
          (List.replicate ps.length (qround (amount / (ps.length : ℚ)))).sum)
        then (1:ℚ)/100 else -(1/100))
      ps.length hn0 1000 0
      (List.replicate ps.length (qround (amount / (ps.length : ℚ))))
    refine ⟨(ps.map Prod.fst).zip s, ?_, ?_⟩
    · rw [EqualSplit.equal_split_unfold amount ps hne, hs]
      rfl
    · apply List.map_fst_zip
      rw [hlen]
      simp

/-- Witness for C10's non-empty case at a concrete input. -/
theorem equal_split_totality_witness :
    EqualSplit.split 7 ([] : List (String × ℚ)) = none ∧
    (([("solo", (1:ℚ))]) ≠ [] ∧
      ∃ alloc, EqualSplit.split 7 [("solo", (1:ℚ))] = some alloc ∧
        alloc.map Prod.fst = ["solo"]) :=
  ⟨equal_split_totality.1 7,
    by simp,
    equal_split_totality.2 7 [("solo", (1:ℚ))] (by simp)⟩

lemma fix_core_sum (amount : ℚ) (hcent : IsCent amount) (shares : List ℚ)
    (hne : shares ≠ []) (hcents : ∀ x ∈ shares, IsCent x)
    (hbound : |amount - shares.sum| ≤ (shares.length : ℚ)/200)
    (hlen : shares.length ≤ 2000) :
    ∃ s, adjustGo amount
        (if 0 < qround (amount - shares.sum) then (1:ℚ)/100 else -(1/100))
        shares.length 1000 0 shares = some s ∧
      s.sum = amount ∧ s.length = shares.length := by
  have htc : IsCent (amount - shares.sum) := hcent.sub (isCent_sum _ hcents)
  obtain ⟨k, hk⟩ := htc
  have hdq : qround (amount - shares.sum) = amount - shares.sum :=
    qround_cent_id _ ⟨k, hk⟩
  by_cases h0 : amount - shares.sum = 0
  · refine ⟨shares, adjustGo_stop _ _ _ _ _ _ (by rw [hdq, h0]), by linarith, rfl⟩
  · have hk0 : k ≠ 0 := by
      intro h
      rw [h] at hk
      norm_num at hk
      exact h0 hk
    have hkabs : |(k : ℚ)| ≤ (shares.length : ℚ)/2 := by
      have : |amount - shares.sum| = |(k : ℚ)|/100 := by
        rw [hk, abs_div, abs_of_nonneg (by norm_num : (0:ℚ) ≤ 100)]
      rw [this] at hbound
      linarith
    rcases lt_or_gt_of_ne hk0 with hkneg | hkpos
    · -- k < 0 : diff < 0, step = -0.01, σ = -1
      have hdneg : qround (amount - shares.sum) < 0 := by
        rw [hdq, hk]
        apply div_neg_of_neg_of_pos _ (by norm_num)
        exact_mod_cast hkneg
      have hstep : (if 0 < qround (amount - shares.sum) then (1:ℚ)/100 else -(1/100)) =
          (-1 : ℚ) * (1/100) := by
        rw [if_neg (by linarith)]
        ring
      have hc : (-1 : ℚ) * (amount - shares.sum) = (((-k).toNat : ℕ) : ℚ)/100 + 0 := by
        have htn : (((-k).toNat : ℕ) : ℚ) = ((-k : ℤ) : ℚ) := by
          exact_mod_cast Int.toNat_of_nonneg (by omega : (0:ℤ) ≤ -k)
        rw [htn, hk]
        push_cast
        ring
      obtain ⟨s, hs, hsum, hslen⟩ := adjustGo_sum amount (-1) 0 (Or.inr rfl)
        (by norm_num) (by norm_num) 1000 0 shares (-k).toNat hne hcents hc
      have hcle : min 1000 (-k).toNat = (-k).toNat := by
        have : ((-k : ℤ) : ℚ) ≤ (shares.length : ℚ)/2 := by
          push_cast
          calc -(k : ℚ) ≤ |(k : ℚ)| := neg_le_abs _
            _ ≤ (shares.length : ℚ)/2 := hkabs
        have h2 : ((-k).toNat : ℚ) ≤ 1000 := by
          have htn : (((-k).toNat : ℕ) : ℚ) = ((-k : ℤ) : ℚ) := by
            exact_mod_cast Int.toNat_of_nonneg (by omega : (0:ℤ) ≤ -k)
          rw [htn]
          calc ((-k : ℤ) : ℚ) ≤ (shares.length : ℚ)/2 := this
            _ ≤ 2000/2 := by
                have : (shares.length : ℚ) ≤ 2000 := by exact_mod_cast hlen
                linarith
            _ = 1000 := by norm_num
        have : (-k).toNat ≤ 1000 := by exact_mod_cast h2
        omega
      refine ⟨s, by rw [hstep]; exact hs, ?_, hslen⟩
      rw [hsum, hcle]
      have htn : (((-k).toNat : ℕ) : ℚ) = ((-k : ℤ) : ℚ) := by
        exact_mod_cast Int.toNat_of_nonneg (by omega : (0:ℤ) ≤ -k)
      rw [htn]
      push_cast
      linarith [hk]
    · -- k > 0 : diff > 0, step = +0.01, σ = 1
      have hdpos : 0 < qround (amount - shares.sum) := by
        rw [hdq, hk]
        apply div_pos _ (by norm_num)
        exact_mod_cast hkpos
      have hstep : (if 0 < qround (amount - shares.sum) then (1:ℚ)/100 else -(1/100)) =
          (1 : ℚ) * (1/100) := by
        rw [if_pos hdpos]
        ring
      have hc : (1 : ℚ) * (amount - shares.sum) = ((k.toNat : ℕ) : ℚ)/100 + 0 := by
        have htn : ((k.toNat : ℕ) : ℚ) = ((k : ℤ) : ℚ) := by
          exact_mod_cast Int.toNat_of_nonneg (by omega : (0:ℤ) ≤ k)
        rw [htn, hk]
        push_cast
        ring
      obtain ⟨s, hs, hsum, hslen⟩ := adjustGo_sum amount 1 0 (Or.inl rfl)
        (by norm_num) (by norm_num) 1000 0 shares k.toNat hne hcents hc
      have hcle : min 1000 k.toNat = k.toNat := by
        have h2 : ((k.toNat : ℕ) : ℚ) ≤ 1000 := by
          have htn : ((k.toNat : ℕ) : ℚ) = ((k : ℤ) : ℚ) := by
            exact_mod_cast Int.toNat_of_nonneg (by omega : (0:ℤ) ≤ k)
          rw [htn]
          calc ((k : ℤ) : ℚ) ≤ |(k : ℚ)| := le_abs_self _
            _ ≤ (shares.length : ℚ)/2 := hkabs
            _ ≤ 2000/2 := by
                have : (shares.length : ℚ) ≤ 2000 := by exact_mod_cast hlen
                linarith
            _ = 1000 := by norm_num
        have : k.toNat ≤ 1000 := by exact_mod_cast h2
        omega
      refine ⟨s, by rw [hstep]; exact hs, ?_, hslen⟩
      rw [hsum, hcle]
      have htn : ((k.toNat : ℕ) : ℚ) = ((k : ℤ) : ℚ) := by
        exact_mod_cast Int.toNat_of_nonneg (by omega : (0:ℤ) ≤ k)
      rw [htn]
      push_cast
      linarith [hk]

lemma ShareSplit.share_split_unfold (amount : ℚ) (ps : List (String × ℚ))
    (hw : ∀ p ∈ ps, 0 < p.2) :
    ShareSplit.split amount ps =
      (adjustGo amount
        (if 0 < qround (amount -
            (ps.map (fun p => qround (amount * (p.2 / (ps.map Prod.snd).sum)))).sum)
          then (1:ℚ)/100 else -(1/100))
        ps.length 1000 0
        (ps.map (fun p => qround (amount * (p.2 / (ps.map Prod.snd).sum))))).map
        (fun s => (ps.map Prod.fst).zip s) := by
  have hany : ¬ (ps.any (fun p => decide (p.2 ≤ 0)) = true) := by
    rw [List.any_eq_true]
    rintro ⟨p, hp, hle⟩
    rw [decide_eq_true_eq] at hle
    exact absurd hle (not_le.mpr (hw p hp))
  simp only [ShareSplit.split]
  rw [if_neg hany]
  simp only [List.map_map, Function.comp_def, List.length_map]

lemma share_raws_sum (amount : ℚ) (ps : List (String × ℚ)) (hne : ps ≠ [])
    (hw : ∀ p ∈ ps, 0 < p.2) :
    (ps.map (fun p => amount * (p.2 / (ps.map Prod.snd).sum))).sum = amount := by
  have hW : 0 < (ps.map Prod.snd).sum := by
    apply List.sum_pos
    · intro x hx
      obtain ⟨p, hp, rfl⟩ := List.mem_map.mp hx
      exact hw p hp
    · intro h
      exact hne (List.map_eq_nil.mp h)
  have hfun : (fun p : String × ℚ => amount * (p.2 / (ps.map Prod.snd).sum)) =
      (fun p : String × ℚ => (amount / (ps.map Prod.snd).sum) * p.2) := by
    funext p
    ring
  rw [hfun]
  have := List.sum_map_mul_left ps (fun p : String × ℚ => p.2)
    (amount / (ps.map Prod.snd).sum)
  rw [this]
  field_simp

/-- Claim C1 (amended) — conservation for Equal and Share modes: for a
positive amount that is a whole number of cents and at most 2000
participants (so the 1000-iteration redistribution cap cannot be hit), the
returned allocations sum to the amount exactly.  (Share mode additionally
requires its positive-weights precondition.) -/
theorem split_conservation_equal_share (amount : ℚ) (ps : List (String × ℚ))
    (hcent : IsCent amount) (hpos : 0 < amount) (hne : ps ≠ [])
    (hlen : ps.length ≤ 2000) :
    (∃ alloc, EqualSplit.split amount ps = some alloc ∧
      (alloc.map Prod.snd).sum = amount) ∧
    ((∀ p ∈ ps, 0 < p.2) →
      ∃ alloc, ShareSplit.split amount ps = some alloc ∧
        (alloc.map Prod.snd).sum = amount) := by
  have hn0 : ps.length ≠ 0 := fun h => hne (List.length_eq_zero.mp h)
  constructor
  · have hbound := abs_equal_base_remainder amount ps.length hn0
    have hrep_ne : List.replicate ps.length (qround (amount / (ps.length : ℚ))) ≠ [] := by
      intro h
      exact hn0 (by simpa using congrArg List.length h)
    have hcents : ∀ x ∈ List.replicate ps.length (qround (amount / (ps.length : ℚ))),
        IsCent x := by
      intro x hx
      rw [List.eq_of_mem_replicate hx]
      exact isCent_qround _
    obtain ⟨s, hs, hsum, hslen⟩ := fix_core_sum amount hcent _ hrep_ne hcents
      (by simpa using hbound) (by simpa using hlen)
    rw [(by simp : (List.replicate ps.length
      (qround (amount / (ps.length : ℚ)))).length = ps.length)] at hs hslen
    refine ⟨(ps.map Prod.fst).zip s, ?_, ?_⟩
    · rw [EqualSplit.equal_split_unfold amount ps hne, hs]
      rfl
    · rw [List.map_snd_zip _ _ (by rw [hslen]; simp)]
      exact hsum
  · intro hw
    have hraws : (ps.map (fun p => amount * (p.2 / (ps.map Prod.snd).sum))).sum =
        amount := share_raws_sum amount ps hne hw
    have hmm : ps.map (fun p => qround (amount * (p.2 / (ps.map Prod.snd).sum))) =
        (ps.map (fun p => amount * (p.2 / (ps.map Prod.snd).sum))).map qround := by
      rw [List.map_map]
      rfl
    have hbound : |amount -
        (ps.map (fun p => qround (amount * (p.2 / (ps.map Prod.snd).sum)))).sum| ≤
        ((ps.map (fun p => qround (amount * (p.2 / (ps.map Prod.snd).sum)))).length : ℚ)
          / 200 := by
      have hb := sum_map_qround_bound
        (ps.map (fun p => amount * (p.2 / (ps.map Prod.snd).sum)))
      rw [hraws] at hb
      rw [hmm]
      simp only [List.length_map] at hb ⊢
      exact hb
    have hshs_ne : ps.map (fun p => qround (amount * (p.2 / (ps.map Prod.snd).sum))) ≠
        [] := by
      intro h
      exact hne (List.map_eq_nil.mp h)
    have hcents : ∀ x ∈ ps.map (fun p => qround (amount * (p.2 / (ps.map Prod.snd).sum))),
        IsCent x := by
      intro x hx
      obtain ⟨p, hp, rfl⟩ := List.mem_map.mp hx
      exact isCent_qround _
    obtain ⟨s, hs, hsum, hslen⟩ := fix_core_sum amount hcent _ hshs_ne hcents hbound
      (by simpa using hlen)
    rw [(by simp : (ps.map (fun p => qround
      (amount * (p.2 / (ps.map Prod.snd).sum)))).length = ps.length)] at hs hslen
    refine ⟨(ps.map Prod.fst).zip s, ?_, ?_⟩
    · rw [ShareSplit.share_split_unfold amount ps hw, hs]
      rfl
    · rw [List.map_snd_zip _ _ (by rw [hslen]; simp)]
      exact hsum

/-- Witness for the amended C1 at a concrete input (the spec's scenario 1). -/
theorem split_conservation_equal_share_witness :
    IsCent (90:ℚ) ∧ (0:ℚ) < 90 ∧
    ([("you",(1:ℚ)),("sam",1),("lee",1)]) ≠ [] ∧
    ([("you",(1:ℚ)),("sam",1),("lee",1)]).length ≤ 2000 ∧
    ((∃ alloc, EqualSplit.split 90 [("you",1),("sam",1),("lee",1)] = some alloc ∧
        (alloc.map Prod.snd).sum = 90) ∧
      ((∀ p ∈ [("you",(1:ℚ)),("sam",1),("lee",1)], 0 < p.2) →
        ∃ alloc, ShareSplit.split 90 [("you",1),("sam",1),("lee",1)] = some alloc ∧
          (alloc.map Prod.snd).sum = 90)) :=
  ⟨⟨9000, by norm_num⟩, by norm_num, by simp, by simp,
    split_conservation_equal_share 90 [("you",1),("sam",1),("lee",1)]
      ⟨9000, by norm_num⟩ (by norm_num) (by simp) (by simp)⟩

/-- Counterexample to C1 as stated: in Exact mode the valid input
`amount = 1.00`, weights `{a: 0.335, b: 0.335, c: 0.33}` (weights sum to the
amount exactly) yields rounded allocations `0.34 + 0.34 + 0.33 = 1.01 ≠ 1.00`:
the conservation invariant does not hold for every mode and valid input. -/
theorem split_conservation_counterexample :
    (0:ℚ) < 1 ∧
    ¬ ((1:ℚ)/100 + EPS <
      |(([("a",(67:ℚ)/200),("b",67/200),("c",33/100)].map Prod.snd).sum - 1 : ℚ)|) ∧
    ExactSplit.split 1 [("a",67/200),("b",67/200),("c",33/100)] =
      some [("a",17/50),("b",17/50),("c",33/100)] ∧
    (([("a",(17:ℚ)/50),("b",17/50),("c",33/100)].map Prod.snd).sum ≠ 1) := by
  refine ⟨by norm_num, ?_, ?_, ?_⟩ <;> with_unfolding_all decide

/-- Claim C2 — `ExactSplit.split` fails (raises) iff the weights differ from
the amount by more than `0.01 + EPS`; on success it returns exactly the
caller-specified weights rounded to currency precision, with no
redistribution. -/
theorem exact_split_spec (amount : ℚ) (ps : List (String × ℚ)) :
    (ExactSplit.split amount ps = none ↔
      1/100 + EPS < |(ps.map Prod.snd).sum - amount|) ∧
    (¬ (1/100 + EPS < |(ps.map Prod.snd).sum - amount|) →
      ExactSplit.split amount ps = some (ps.map (fun p => (p.1, qround p.2)))) := by
  constructor
  · simp only [ExactSplit.split]
    split_ifs with h
    · exact ⟨fun _ => h, fun _ => rfl⟩
    · constructor
      · intro hco
        exact absurd hco (by simp)
      · intro hco
        exact absurd hco h
  · intro h
    simp only [ExactSplit.split]
    rw [if_neg h]

/-- Witness for C2: a succeeding exact split and a failing one
(the spec's scenario 3). -/
theorem exact_split_spec_witness :
    (¬ ((1:ℚ)/100 + EPS <
        |(([("you",(20:ℚ)),("other",30)].map Prod.snd).sum - 50 : ℚ)|) ∧
      ExactSplit.split 50 [("you",20),("other",30)] =
        some ([("you",(20:ℚ)),("other",30)].map (fun p => (p.1, qround p.2)))) ∧
    (((1:ℚ)/100 + EPS <
        |(([("you",(20:ℚ)),("other",29)].map Prod.snd).sum - 50 : ℚ)|) ∧
      ExactSplit.split 50 [("you",20),("other",29)] = none) := by
  have h1 : ¬ ((1:ℚ)/100 + EPS <
      |(([("you",(20:ℚ)),("other",30)].map Prod.snd).sum - 50 : ℚ)|) := by
    with_unfolding_all decide
  have h2 : ((1:ℚ)/100 + EPS <
      |(([("you",(20:ℚ)),("other",29)].map Prod.snd).sum - 50 : ℚ)|) := by
    with_unfolding_all decide
  exact ⟨⟨h1, (exact_split_spec 50 [("you",20),("other",30)]).2 h1⟩,
    ⟨h2, (exact_split_spec 50 [("you",20),("other",29)]).1.mpr h2⟩⟩

/-!
### Ledger (`core/models/ledger.py`)

`balance` is a two-level Python `dict` (`defaultdict`), modelled as an
insertion-ordered association list of association lists.  `alGet` is dict
lookup with a default; `alSet` is dict assignment (update in place, append
if absent), as Python dicts behave.
-/

def alGet {α : Type} (l : List (String × α)) (k : String) (d : α) : α :=
  match l with
  | [] => d
  | p :: t => if p.1 = k then p.2 else alGet t k d

def alSet {α : Type} (l : List (String × α)) (k : String) (v : α) :
    List (String × α) :=
  match l with
  | [] => [(k, v)]
  | p :: t => if p.1 = k then (k, v) :: t else p :: alSet t k v

/-- The two-level balance table of `Ledger`. -/
abbrev Bal := List (String × List (String × ℚ))

/-- Lookup `balance[u][v]`, with the `defaultdict` default `0.0`. -/
def balLookup (b : Bal) (u v : String) : ℚ := alGet (alGet b u []) v 0

/-- The loop of `Ledger.apply_expense` over the allocation mapping:
for every `(user, owed)` with `user != payer`,
`balance[user][payer] += owed`. -/
def Ledger.apply_expense_alloc (b : Bal) (payer : String)
    (alloc : List (String × ℚ)) : Bal :=
  alloc.foldl (fun acc p =>
    if p.1 = payer then acc
    else
      alSet acc p.1 (alSet (alGet acc p.1 []) payer
        (alGet (alGet acc p.1 []) payer 0 + p.2))) b

/-- From `core/models/ledger.py`, `Ledger.apply_settlement`: `balance[payer][payee] -= amount`. -/
def Ledger.apply_settlement (b : Bal) (payer payee : String) (amount : ℚ) : Bal :=
  alSet b payer (alSet (alGet b payer []) payee
    (alGet (alGet b payer []) payee 0 - amount))

/-- From `core/models/ledger.py`, `Ledger.net_for`: both directions combined per counterparty, entries
whose directional magnitude is `> 1e-9` only, rounded with `round(v, 2)`. -/
def Ledger.net_for (b : Bal) (me : String) : List (String × ℚ) :=
  let r1 := (alGet b me []).foldl
    (fun r p => if 1/1000000000 < |p.2| then alSet r p.1 p.2 else r) []
  let r2 := b.foldl
    (fun r p =>
      if p.1 = me then r
      else
        if 1/1000000000 < |alGet p.2 me 0| then
          alSet r p.1 (alGet r p.1 0 - alGet p.2 me 0)
        else r) r1
  r2.map (fun p => (p.1, round2 p.2))

lemma alGet_alSet_self {α : Type} (l : List (String × α)) (k : String) (v : α)
    (d : α) : alGet (alSet l k v) k d = v := by
  induction l with
  | nil => simp [alGet, alSet]
  | cons p t ih =>
    by_cases h : p.1 = k
    · simp [alGet, alSet, h]
    · simp [alGet, alSet, h, ih]

lemma alGet_alSet_ne {α : Type} (l : List (String × α)) (k k' : String) (v : α)
    (d : α) (h : k' ≠ k) : alGet (alSet l k v) k' d = alGet l k' d := by
  induction l with
  | nil => simp [alGet, alSet, Ne.symm h]
  | cons p t ih =>
    simp only [alSet]
    by_cases hp : p.1 = k
    · rw [if_pos hp]
      show alGet ((k, v) :: t) k' d = alGet (p :: t) k' d
      simp only [alGet]
      rw [if_neg (Ne.symm h), if_neg (by rw [hp]; exact Ne.symm h)]
    · rw [if_neg hp]
      show alGet (p :: alSet t k v) k' d = alGet (p :: t) k' d
      simp only [alGet]
      by_cases hp' : p.1 = k'
      · rw [if_pos hp', if_pos hp']
      · rw [if_neg hp', if_neg hp']
        exact ih

lemma alGet_not_mem {α : Type} (l : List (String × α)) (k : String) (d : α)
    (h : k ∉ l.map Prod.fst) : alGet l k d = d := by
  induction l with
  | nil => rfl
  | cons p t ih =>
    simp only [List.map_cons, List.mem_cons] at h
    push_neg at h
    simp [alGet, Ne.symm h.1, ih h.2]

lemma alSet_keys {α : Type} (l : List (String × α)) (k k' : String) (v : α) :
    k' ∈ (alSet l k v).map Prod.fst ↔ k' = k ∨ k' ∈ l.map Prod.fst := by
  induction l with
  | nil => simp [alSet]
  | cons p t ih =>
    by_cases hp : p.1 = k
    · simp only [alSet, if_pos hp, List.map_cons, List.mem_cons]
      subst hp
      tauto
    · simp only [alSet, if_neg hp, List.map_cons, List.mem_cons, ih]
      tauto

lemma alGet_mem_of_ne_default {α : Type} (l : List (String × α)) (k : String)
    (d : α) (h : alGet l k d ≠ d) : k ∈ l.map Prod.fst := by
  by_contra hmem
  exact h (alGet_not_mem l k d hmem)

lemma apply_expense_alloc_spec (payer : String) :
    ∀ (alloc : List (String × ℚ)) (bal : Bal), (alloc.map Prod.fst).Nodup →
    (∀ u a, (u, a) ∈ alloc → u ≠ payer →
      balLookup (Ledger.apply_expense_alloc bal payer alloc) u payer =
        balLookup bal u payer + a) ∧
    (∀ u v, (u = payer ∨ v ≠ payer ∨ u ∉ alloc.map Prod.fst) →
      balLookup (Ledger.apply_expense_alloc bal payer alloc) u v =
        balLookup bal u v) := by
  intro alloc
  induction alloc with
  | nil =>
    intro bal hnd
    exact ⟨fun u a h => absurd h (List.not_mem_nil _), fun u v _ => rfl⟩
  | cons w t ih =>
    intro bal hnd
    obtain ⟨w1, w2⟩ := w
    simp only [List.map_cons, List.nodup_cons] at hnd
    obtain ⟨hw_nin, hnd_t⟩ := hnd
    by_cases hwp : w1 = payer
    · have hstep : Ledger.apply_expense_alloc bal payer ((w1, w2) :: t) =
          Ledger.apply_expense_alloc bal payer t := by
        simp only [Ledger.apply_expense_alloc, List.foldl_cons, if_pos hwp]
      rw [hstep]
      obtain ⟨ih1, ih2⟩ := ih bal hnd_t
      constructor
      · intro u a hu hup
        rcases List.mem_cons.mp hu with heq | hmem
        · exfalso
          apply hup
          rw [(Prod.mk.injEq u a w1 w2).mp heq |>.1, hwp]
        · exact ih1 u a hmem hup
      · intro u v hcond
        apply ih2
        rcases hcond with h | h | h
        · exact Or.inl h
        · exact Or.inr (Or.inl h)
        · exact Or.inr (Or.inr (fun hm => h (by simp [hm])))
    · have hstep : Ledger.apply_expense_alloc bal payer ((w1, w2) :: t) =
          Ledger.apply_expense_alloc
            (alSet bal w1 (alSet (alGet bal w1 []) payer
              (alGet (alGet bal w1 []) payer 0 + w2))) payer t := by
        simp only [Ledger.apply_expense_alloc, List.foldl_cons, if_neg hwp]
      have hF1 : balLookup (alSet bal w1 (alSet (alGet bal w1 []) payer
          (alGet (alGet bal w1 []) payer 0 + w2))) w1 payer =
          balLookup bal w1 payer + w2 := by
        unfold balLookup
        rw [alGet_alSet_self, alGet_alSet_self]
      have hF2 : ∀ u v, u ≠ w1 →
          balLookup (alSet bal w1 (alSet (alGet bal w1 []) payer
            (alGet (alGet bal w1 []) payer 0 + w2))) u v = balLookup bal u v := by
        intro u v hu
        unfold balLookup
        rw [alGet_alSet_ne _ _ _ _ _ hu]
      have hF3 : ∀ v, v ≠ payer →
          balLookup (alSet bal w1 (alSet (alGet bal w1 []) payer
            (alGet (alGet bal w1 []) payer 0 + w2))) w1 v = balLookup bal w1 v := by
        intro v hv
        unfold balLookup
        rw [alGet_alSet_self, alGet_alSet_ne _ _ _ _ _ hv]
      obtain ⟨ih1, ih2⟩ := ih (alSet bal w1 (alSet (alGet bal w1 []) payer
        (alGet (alGet bal w1 []) payer 0 + w2))) hnd_t
      constructor
      · intro u a hu hup
        rcases List.mem_cons.mp hu with heq | hmem
        · obtain ⟨h1, h2⟩ := (Prod.mk.injEq u a w1 w2).mp heq
          subst h1
          subst h2
          rw [hstep, ih2 u payer (Or.inr (Or.inr hw_nin))]
          exact hF1
        · rw [hstep, ih1 u a hmem hup]
          have hune : u ≠ w1 :=
            fun h => hw_nin (h ▸ List.mem_map.mpr ⟨(u, a), hmem, rfl⟩)
          rw [hF2 u payer hune]
      · intro u v hcond
        rw [hstep]
        have hcond' : u = payer ∨ v ≠ payer ∨ u ∉ t.map Prod.fst := by
          rcases hcond with h | h | h
          · exact Or.inl h
          · exact Or.inr (Or.inl h)
          · exact Or.inr (Or.inr (fun hm => h (by simp [hm])))
        rw [ih2 u v hcond']
        by_cases hu : u = w1
        · subst hu
          rcases hcond with h | h | h
          · exact absurd h hwp
          · exact hF3 v h
          · exact absurd (by simp) h
        · exact hF2 u v hu

/-- Claim C3 — `Ledger.apply_expense`: every non-payer participant's debt
entry `balance[participant][payer]` grows by exactly that participant's
allocation; the payer never owes itself, and no other balance entry
changes. -/
theorem apply_expense_balances (bal : Bal) (payer : String)
    (alloc : List (String × ℚ)) (hnd : (alloc.map Prod.fst).Nodup) :
    (∀ u a, (u, a) ∈ alloc → u ≠ payer →
      balLookup (Ledger.apply_expense_alloc bal payer alloc) u payer =
        balLookup bal u payer + a) ∧
    (balLookup (Ledger.apply_expense_alloc bal payer alloc) payer payer =
      balLookup bal payer payer) ∧
    (∀ u v, (u = payer ∨ v ≠ payer ∨ u ∉ alloc.map Prod.fst) →
      balLookup (Ledger.apply_expense_alloc bal payer alloc) u v =
        balLookup bal u v) := by
  obtain ⟨h1, h2⟩ := apply_expense_alloc_spec payer alloc bal hnd
  exact ⟨h1, h2 payer payer (Or.inl rfl), h2⟩

/-- Witness for C3 at a concrete expense. -/
theorem apply_expense_balances_witness :
    (([("you",(30:ℚ)),("sam",30),("lee",30)].map Prod.fst).Nodup) ∧
    ((∀ u a, (u, a) ∈ [("you",(30:ℚ)),("sam",30),("lee",30)] → u ≠ "you" →
      balLookup (Ledger.apply_expense_alloc [] "you"
          [("you",30),("sam",30),("lee",30)]) u "you" =
        balLookup [] u "you" + a) ∧
    (balLookup (Ledger.apply_expense_alloc [] "you"
        [("you",30),("sam",30),("lee",30)]) "you" "you" =
      balLookup [] "you" "you") ∧
    (∀ u v, (u = "you" ∨ v ≠ "you" ∨
        u ∉ [("you",(30:ℚ)),("sam",30),("lee",30)].map Prod.fst) →
      balLookup (Ledger.apply_expense_alloc [] "you"
          [("you",30),("sam",30),("lee",30)]) u v =
        balLookup [] u v)) :=
  ⟨by decide,
    apply_expense_balances [] "you" [("you",30),("sam",30),("lee",30)] (by decide)⟩

lemma alGet_eq_default_or_mem {α : Type} (l : List (String × α)) (k : String)
    (d : α) : alGet l k d = d ∨ (k, alGet l k d) ∈ l := by
  induction l with
  | nil => exact Or.inl rfl
  | cons p t ih =>
    by_cases hp : p.1 = k
    · right
      simp only [alGet, if_pos hp]
      have hpe : p = (k, p.2) := by rw [← hp]
      rw [← hpe]
      exact List.mem_cons_self p t
    · rcases ih with h | h
      · left
        simpa [alGet, hp] using h
      · right
        simp only [alGet, if_neg hp]
        exact List.mem_cons_of_mem p h

lemma alGet_map_round2 (l : List (String × ℚ)) (k : String) (d : ℚ)
    (hmem : k ∈ l.map Prod.fst) :
    alGet (l.map (fun p => (p.1, round2 p.2))) k d = round2 (alGet l k 0) := by
  induction l with
  | nil => simp at hmem
  | cons p t ih =>
    by_cases hp : p.1 = k
    · simp [alGet, hp]
    · simp only [List.map_cons, List.mem_cons] at hmem
      rcases hmem with h | h
      · exact absurd h.symm hp
      · simp only [List.map_cons, alGet, if_neg hp]
        exact ih h

lemma netfold1_spec :
    ∀ (inner : List (String × ℚ)) (r : List (String × ℚ)) (k : String),
      (inner.map Prod.fst).Nodup →
      (k ∈ (inner.foldl
          (fun r p => if 1/1000000000 < |p.2| then alSet r p.1 p.2 else r)
          r).map Prod.fst ↔
        k ∈ r.map Prod.fst ∨ 1/1000000000 < |alGet inner k 0|) ∧
      (∀ d, alGet (inner.foldl
          (fun r p => if 1/1000000000 < |p.2| then alSet r p.1 p.2 else r) r) k d =
        if 1/1000000000 < |alGet inner k 0| then alGet inner k 0 else alGet r k d) := by
  intro inner
  induction inner with
  | nil =>
    intro r k hnd
    constructor
    · simp [alGet]
    · intro d
      rw [if_neg (by simp [alGet])]
      rfl
  | cons p t ih =>
    intro r k hnd
    obtain ⟨p1, v⟩ := p
    simp only [List.map_cons, List.nodup_cons] at hnd
    obtain ⟨hp_nin, hnd_t⟩ := hnd
    simp only [List.foldl_cons]
    obtain ⟨ihk, ihv⟩ := ih (if (1:ℚ)/1000000000 < |v| then alSet r p1 v else r) k hnd_t
    by_cases hpk : p1 = k
    · have hget : alGet ((p1, v) :: t) k 0 = v := by simp [alGet, hpk]
      have htk : alGet t k 0 = 0 := alGet_not_mem t k 0 (hpk ▸ hp_nin)
      by_cases hv : (1:ℚ)/1000000000 < |v|
      · constructor
        · rw [ihk, hget, if_pos hv]
          apply iff_of_true
          · left
            rw [alSet_keys]
            exact Or.inl hpk.symm
          · exact Or.inr hv
        · intro d
          rw [ihv d, hget, htk, if_neg (by norm_num), if_pos hv, if_pos hv,
            hpk, alGet_alSet_self]
      · constructor
        · rw [ihk, hget, htk, if_neg hv]
          constructor
          · rintro (h | h)
            · exact Or.inl h
            · norm_num at h
          · rintro (h | h)
            · exact Or.inl h
            · exact absurd h hv
        · intro d
          rw [ihv d, hget, htk, if_neg (by norm_num), if_neg hv, if_neg hv]
    · have hget : alGet ((p1, v) :: t) k 0 = alGet t k 0 := by simp [alGet, hpk]
      have hkp1 : k ≠ p1 := fun h => hpk h.symm
      have hr1v : ∀ d, alGet (if (1:ℚ)/1000000000 < |v| then alSet r p1 v else r) k d =
          alGet r k d := by
        intro d
        split_ifs with hv
        · exact alGet_alSet_ne r p1 k v d hkp1
        · rfl
      have hr1k : (k ∈ (if (1:ℚ)/1000000000 < |v| then alSet r p1 v else r).map
          Prod.fst) ↔ k ∈ r.map Prod.fst := by
        split_ifs with hv
        · rw [alSet_keys]
          constructor
          · rintro (h | h)
            · exact absurd h hkp1
            · exact h
          · exact Or.inr
        · exact Iff.rfl
      constructor
      · rw [ihk, hget, hr1k]
      · intro d
        rw [ihv d, hget, hr1v]

lemma netfold2_spec (me : String) :
    ∀ (b : Bal) (r : List (String × ℚ)) (k : String),
      (b.map Prod.fst).Nodup →
      (k ∈ (b.foldl (fun r p =>
          if p.1 = me then r
          else if 1/1000000000 < |alGet p.2 me 0| then
            alSet r p.1 (alGet r p.1 0 - alGet p.2 me 0)
          else r) r).map Prod.fst ↔
        k ∈ r.map Prod.fst ∨
          (k ≠ me ∧ 1/1000000000 < |alGet (alGet b k []) me 0|)) ∧
      (∀ d, alGet (b.foldl (fun r p =>
          if p.1 = me then r
          else if 1/1000000000 < |alGet p.2 me 0| then
            alSet r p.1 (alGet r p.1 0 - alGet p.2 me 0)
          else r) r) k d =
        if k ≠ me ∧ 1/1000000000 < |alGet (alGet b k []) me 0|
          then alGet r k 0 - alGet (alGet b k []) me 0
          else alGet r k d) := by
  intro b
  induction b with
  | nil =>
    intro r k hnd
    constructor
    · simp [alGet]
    · intro d
      rw [if_neg (by simp [alGet])]
      rfl
  | cons p t ih =>
    intro r k hnd
    obtain ⟨a, mp⟩ := p
    simp only [List.map_cons, List.nodup_cons] at hnd
    obtain ⟨ha_nin, hnd_t⟩ := hnd
    simp only [List.foldl_cons]
    obtain ⟨ihk, ihv⟩ := ih
      (if a = me then r
        else if 1/1000000000 < |alGet mp me 0| then
          alSet r a (alGet r a 0 - alGet mp me 0)
        else r) k hnd_t
    have hnil : alGet ([] : List (String × ℚ)) me 0 = 0 := rfl
    by_cases hak : a = k
    · have hget : alGet ((a, mp) :: t) k [] = mp := by simp [alGet, hak]
      have htk : alGet t k [] = [] := alGet_not_mem t k [] (hak ▸ ha_nin)
      by_cases hkme : k = me
      · have hame : a = me := hak.trans hkme
        constructor
        · rw [ihk, hget, htk, hnil, if_pos hame]
          constructor
          · rintro (h | ⟨hne, h⟩)
            · exact Or.inl h
            · norm_num at h
          · rintro (h | ⟨hne, h⟩)
            · exact Or.inl h
            · exact absurd hkme hne
        · intro d
          rw [ihv d, hget, htk, hnil, if_pos hame,
            if_neg (by rintro ⟨hne, h⟩; norm_num at h),
            if_neg (by rintro ⟨hne, h⟩; exact hne hkme)]
      · have hame : ¬ (a = me) := fun h => hkme (hak.symm.trans h)
        by_cases hv : (1:ℚ)/1000000000 < |alGet mp me 0|
        · constructor
          · rw [ihk, hget, htk, hnil, if_neg hame, if_pos hv]
            apply iff_of_true
            · left
              rw [alSet_keys]
              exact Or.inl hak.symm
            · exact Or.inr ⟨hkme, hv⟩
          · intro d
            rw [ihv d, hget, htk, hnil, if_neg hame, if_pos hv,
              if_neg (by rintro ⟨hne, h⟩; norm_num at h),
              if_pos (⟨hkme, hv⟩ : k ≠ me ∧ 1/1000000000 < |alGet mp me 0|),
              hak, alGet_alSet_self]
        · constructor
          · rw [ihk, hget, htk, hnil, if_neg hame, if_neg hv]
            constructor
            · rintro (h | ⟨hne, h⟩)
              · exact Or.inl h
              · norm_num at h
            · rintro (h | ⟨hne, h⟩)
              · exact Or.inl h
              · exact absurd h hv
          · intro d
            rw [ihv d, hget, htk, hnil, if_neg hame, if_neg hv,
              if_neg (by rintro ⟨hne, h⟩; norm_num at h),
              if_neg (by rintro ⟨hne, h⟩; exact hv h)]
    · have hget : alGet ((a, mp) :: t) k [] = alGet t k [] := by simp [alGet, hak]
      have hka : k ≠ a := fun h => hak h.symm
      have hr1v : ∀ d, alGet (if a = me then r
          else if 1/1000000000 < |alGet mp me 0| then
            alSet r a (alGet r a 0 - alGet mp me 0)
          else r) k d = alGet r k d := by
        intro d
        split_ifs with h1 h2
        · rfl
        · exact alGet_alSet_ne r a k _ d hka
        · rfl
      have hr1k : (k ∈ (if a = me then r
          else if 1/1000000000 < |alGet mp me 0| then
            alSet r a (alGet r a 0 - alGet mp me 0)
          else r).map Prod.fst) ↔ k ∈ r.map Prod.fst := by
        split_ifs with h1 h2
        · exact Iff.rfl
        · rw [alSet_keys]
          constructor
          · rintro (h | h)
            · exact absurd h hka
            · exact h
          · exact Or.inr
        · exact Iff.rfl
      constructor
      · rw [ihk, hget, hr1k]
      · intro d
        rw [ihv d, hget, hr1v 0, hr1v d]

/-- Well-formedness of a balance table: unique keys at both levels
(automatic for Python dicts). -/
def BalWF (b : Bal) : Prop :=
  (b.map Prod.fst).Nodup ∧ ∀ p ∈ b, (p.2.map Prod.fst).Nodup

lemma balWF_inner_nodup (b : Bal) (hwf : BalWF b) (me : String) :
    ((alGet b me []).map Prod.fst).Nodup := by
  rcases alGet_eq_default_or_mem b me [] with h | h
  · rw [h]
    exact List.nodup_nil
  · exact hwf.2 (me, alGet b me []) h

lemma net_for_spec (b : Bal) (hwf : BalWF b) (me k : String) :
    (k ∈ (Ledger.net_for b me).map Prod.fst ↔
      1/1000000000 < |balLookup b me k| ∨
        (k ≠ me ∧ 1/1000000000 < |balLookup b k me|)) ∧
    (k ∈ (Ledger.net_for b me).map Prod.fst → ∀ d,
      alGet (Ledger.net_for b me) k d =
        round2 ((if 1/1000000000 < |balLookup b me k|
            then balLookup b me k else 0) -
          (if k ≠ me ∧ 1/1000000000 < |balLookup b k me|
            then balLookup b k me else 0))) := by
  have hf1 := netfold1_spec (alGet b me []) [] k (balWF_inner_nodup b hwf me)
  have hf2 := netfold2_spec me b
    ((alGet b me []).foldl
      (fun r p => if 1/1000000000 < |p.2| then alSet r p.1 p.2 else r)
      ([] : List (String × ℚ))) k hwf.1
  have f1k := hf1.1
  have f1v := hf1.2
  have f2k := hf2.1
  have f2v := hf2.2
  have hkeys : (Ledger.net_for b me).map Prod.fst =
      (b.foldl (fun r p =>
          if p.1 = me then r
          else if 1/1000000000 < |alGet p.2 me 0| then
            alSet r p.1 (alGet r p.1 0 - alGet p.2 me 0)
          else r)
        ((alGet b me []).foldl
          (fun r p => if 1/1000000000 < |p.2| then alSet r p.1 p.2 else r) [])).map
        Prod.fst := by
    simp [Ledger.net_for, List.map_map, Function.comp_def]
  have hx : alGet (alGet b me []) k 0 = balLookup b me k := rfl
  have hy : alGet (alGet b k []) me 0 = balLookup b k me := rfl
  have hmemiff : k ∈ (Ledger.net_for b me).map Prod.fst ↔
      1/1000000000 < |balLookup b me k| ∨
        (k ≠ me ∧ 1/1000000000 < |balLookup b k me|) := by
    rw [hkeys, f2k, f1k, hx, hy]
    simp
  refine ⟨hmemiff, ?_⟩
  intro hmem d
  have hmem2 : k ∈ (b.foldl (fun r p =>
      if p.1 = me then r
      else if 1/1000000000 < |alGet p.2 me 0| then
        alSet r p.1 (alGet r p.1 0 - alGet p.2 me 0)
      else r)
    ((alGet b me []).foldl
      (fun r p => if 1/1000000000 < |p.2| then alSet r p.1 p.2 else r) [])).map
      Prod.fst := by
    rw [← hkeys]
    exact hmem
  have hval : alGet (Ledger.net_for b me) k d =
      round2 (alGet (b.foldl (fun r p =>
        if p.1 = me then r
        else if 1/1000000000 < |alGet p.2 me 0| then
          alSet r p.1 (alGet r p.1 0 - alGet p.2 me 0)
        else r)
      ((alGet b me []).foldl
        (fun r p => if 1/1000000000 < |p.2| then alSet r p.1 p.2 else r) [])) k 0) := by
    have hnet : Ledger.net_for b me =
        (b.foldl (fun r p =>
          if p.1 = me then r
          else if 1/1000000000 < |alGet p.2 me 0| then
            alSet r p.1 (alGet r p.1 0 - alGet p.2 me 0)
          else r)
        ((alGet b me []).foldl
          (fun r p => if 1/1000000000 < |p.2| then alSet r p.1 p.2 else r) [])).map
          (fun p => (p.1, round2 p.2)) := rfl
    rw [hnet]
    exact alGet_map_round2 _ k d hmem2
  rw [hval, f2v 0, f1v 0, hx, hy]
  have hnil0 : alGet ([] : List (String × ℚ)) k 0 = 0 := rfl
  rw [hnil0]
  by_cases hc2 : k ≠ me ∧ 1/1000000000 < |balLookup b k me|
  · rw [if_pos hc2, if_pos hc2]
  · rw [if_neg hc2, if_neg hc2, sub_zero]

/-- Claim C4 (amended) — `Ledger.net_for` omission and rounding: an entry
for `other` appears iff one of the two directional balances exceeds `1e-9`
in absolute value (strictly); each direction below that threshold is
dropped from the combined net; every returned value is `round(·, 2)` of the
combination.  (The spec's `1e-6` threshold on the combined net does not
match the code; see the counterexample.) -/
theorem net_for_omission_rounding (b : Bal) (hwf : BalWF b) (me other : String) :
    (other ∈ (Ledger.net_for b me).map Prod.fst ↔
      1/1000000000 < |balLookup b me other| ∨
        (other ≠ me ∧ 1/1000000000 < |balLookup b other me|)) ∧
    (other ∈ (Ledger.net_for b me).map Prod.fst →
      alGet (Ledger.net_for b me) other 0 =
        round2 ((if 1/1000000000 < |balLookup b me other|
            then balLookup b me other else 0) -
          (if other ≠ me ∧ 1/1000000000 < |balLookup b other me|
            then balLookup b other me else 0))) :=
  ⟨(net_for_spec b hwf me other).1,
    fun h => (net_for_spec b hwf me other).2 h 0⟩

/-- Counterexample to C4 as stated: with mutual balances of 5 in each
direction, the combined net is 0 (below the claimed 1e-6 threshold), yet
`net_for` still contains an entry for the counterparty. -/
theorem net_for_omission_counterexample :
    ("B" ∈ (Ledger.net_for [("A", [("B", 5)]), ("B", [("A", 5)])] "A").map
      Prod.fst) ∧
    balLookup [("A", [("B", 5)]), ("B", [("A", 5)])] "A" "B" -
      balLookup [("A", [("B", 5)]), ("B", [("A", 5)])] "B" "A" = 0 ∧
    ¬ ((1:ℚ)/1000000 ≤
      |balLookup [("A", [("B", 5)]), ("B", [("A", 5)])] "A" "B" -
        balLookup [("A", [("B", 5)]), ("B", [("A", 5)])] "B" "A"|) := by
  refine ⟨?_, ?_, ?_⟩ <;> with_unfolding_all decide

/-- Witness for the amended C4 at a concrete ledger state. -/
theorem net_for_omission_rounding_witness :
    BalWF [("A", [("B", (5:ℚ))])] ∧
    (("B" ∈ (Ledger.net_for [("A", [("B", (5:ℚ))])] "A").map Prod.fst ↔
      1/1000000000 < |balLookup [("A", [("B", (5:ℚ))])] "A" "B"| ∨
        ("B" ≠ "A" ∧ 1/1000000000 < |balLookup [("A", [("B", (5:ℚ))])] "B" "A"|)) ∧
    ("B" ∈ (Ledger.net_for [("A", [("B", (5:ℚ))])] "A").map Prod.fst →
      alGet (Ledger.net_for [("A", [("B", (5:ℚ))])] "A") "B" 0 =
        round2 ((if 1/1000000000 < |balLookup [("A", [("B", (5:ℚ))])] "A" "B"|
            then balLookup [("A", [("B", (5:ℚ))])] "A" "B" else 0) -
          (if "B" ≠ "A" ∧ 1/1000000000 < |balLookup [("A", [("B", (5:ℚ))])] "B" "A"|
            then balLookup [("A", [("B", (5:ℚ))])] "B" "A" else 0)))) :=
  ⟨by constructor <;> decide,
    net_for_omission_rounding [("A", [("B", (5:ℚ))])] (by constructor <;> decide)
      "A" "B"⟩

/-- Claim C5 (amended) — antisymmetry of the net view for *distinct*
identities: whenever either entry is present, both are, and
`net_for(A)[B] = -net_for(B)[A]`.  (At `A = B` the property fails on
reachable states; see the counterexample.) -/
theorem net_for_antisymmetry (b : Bal) (hwf : BalWF b) (A B : String)
    (hAB : A ≠ B)
    (h : B ∈ (Ledger.net_for b A).map Prod.fst ∨
      A ∈ (Ledger.net_for b B).map Prod.fst) :
    B ∈ (Ledger.net_for b A).map Prod.fst ∧
    A ∈ (Ledger.net_for b B).map Prod.fst ∧
    alGet (Ledger.net_for b A) B 0 = - alGet (Ledger.net_for b B) A 0 := by
  obtain ⟨kA, vA⟩ := net_for_spec b hwf A B
  obtain ⟨kB, vB⟩ := net_for_spec b hwf B A
  have hBA : B ≠ A := fun e => hAB e.symm
  have hc : 1/1000000000 < |balLookup b A B| ∨
      (B ≠ A ∧ 1/1000000000 < |balLookup b B A|) := by
    rcases h with h | h
    · exact kA.mp h
    · rcases kB.mp h with h' | ⟨_, h'⟩
      · exact Or.inr ⟨hBA, h'⟩
      · exact Or.inl h'
  have hc' : 1/1000000000 < |balLookup b B A| ∨
      (A ≠ B ∧ 1/1000000000 < |balLookup b A B|) := by
    rcases hc with h' | ⟨_, h'⟩
    · exact Or.inr ⟨hAB, h'⟩
    · exact Or.inl h'
  have hBmem := kA.mpr hc
  have hAmem := kB.mpr hc'
  refine ⟨hBmem, hAmem, ?_⟩
  rw [vA hBmem, vB hAmem]
  have hXY : (if 1/1000000000 < |balLookup b A B|
      then balLookup b A B else 0) =
      (if A ≠ B ∧ 1/1000000000 < |balLookup b A B|
        then balLookup b A B else 0) := by
    by_cases hb : 1/1000000000 < |balLookup b A B|
    · rw [if_pos hb, if_pos ⟨hAB, hb⟩]
    · rw [if_neg hb, if_neg (fun hh => hb hh.2)]
  have hYX : (if B ≠ A ∧ 1/1000000000 < |balLookup b B A|
      then balLookup b B A else 0) =
      (if 1/1000000000 < |balLookup b B A|
        then balLookup b B A else 0) := by
    by_cases hb : 1/1000000000 < |balLookup b B A|
    · rw [if_pos ⟨hBA, hb⟩, if_pos hb]
    · rw [if_neg (fun hh => hb hh.2), if_neg hb]
  rw [hXY, hYX, ← round2_neg]
  congr 1
  ring

/-- Counterexample to C5 as stated ("for all identities A, B"): after the
reachable self-settlement `apply_settlement(A, A, 5)`, `net_for(A)` holds a
self entry equal to `-5`, and `-5 ≠ -(-5)`. -/
theorem net_for_antisymmetry_counterexample :
    ("A" ∈ (Ledger.net_for (Ledger.apply_settlement [] "A" "A" 5) "A").map
      Prod.fst) ∧
    alGet (Ledger.net_for (Ledger.apply_settlement [] "A" "A" 5) "A") "A" 0 ≠
      - alGet (Ledger.net_for (Ledger.apply_settlement [] "A" "A" 5) "A") "A" 0 := by
  constructor <;> with_unfolding_all decide

/-- Witness for the amended C5 at a concrete ledger state. -/
theorem net_for_antisymmetry_witness :
    BalWF [("A", [("B", (5:ℚ))])] ∧ "A" ≠ "B" ∧
    ("B" ∈ (Ledger.net_for [("A", [("B", (5:ℚ))])] "A").map Prod.fst ∨
      "A" ∈ (Ledger.net_for [("A", [("B", (5:ℚ))])] "B").map Prod.fst) ∧
    ("B" ∈ (Ledger.net_for [("A", [("B", (5:ℚ))])] "A").map Prod.fst ∧
      "A" ∈ (Ledger.net_for [("A", [("B", (5:ℚ))])] "B").map Prod.fst ∧
      alGet (Ledger.net_for [("A", [("B", (5:ℚ))])] "A") "B" 0 =
        - alGet (Ledger.net_for [("A", [("B", (5:ℚ))])] "B") "A" 0) :=
  ⟨by constructor <;> decide, by decide,
    Or.inl (by with_unfolding_all decide),
    net_for_antisymmetry [("A", [("B", (5:ℚ))])] (by constructor <;> decide)
      "A" "B" (by decide) (Or.inl (by with_unfolding_all decide))⟩

/-!
### Models and manager (`core/models/expense.py`, `core/services/manager.py`)

Timestamps (`datetime`) are modelled as integers; ISO round-tripping is not
modelled.  A persisted record is the JSON dict produced by
`_serialize_expense` / `_serialize_settlement`.
-/

/-- The closed set of split strategies (`_strategy_map` values). -/
inductive SplitStrategy
  | equalSplit
  | exactSplit
  | shareSplit

/-- Dispatch of `SplitStrategy.split` to the concrete strategy. -/
def SplitStrategy.split : SplitStrategy → ℚ → List (String × ℚ) →
    Option (List (String × ℚ))
  | .equalSplit => EqualSplit.split
  | .exactSplit => ExactSplit.split
  | .shareSplit => ShareSplit.split

/-- From `core/models/expense.py`: the `Expense` dataclass. -/
structure Expense where
  id : String
  description : String
  amount : ℚ
  payer : String
  participants : List (String × ℚ)
  split_strategy : SplitStrategy
  notes : String
  date : ℤ
  group_id : Option String

/-- Method `Expense.allocations()`; `none` models a raised `ValueError` /
`ZeroDivisionError` from the strategy. -/
def Expense.allocations (e : Expense) : Option (List (String × ℚ)) :=
  e.split_strategy.split e.amount e.participants

/-- From `core/models/expense.py`: the `Settlement` dataclass. -/
structure Settlement where
  id : String
  payer : String
  payee : String
  amount : ℚ
  description : String
  date : ℤ
  notes : String

/-- A persisted (serialized) expense record; `split_strategy` is the class
name string tag. -/
structure ExpenseRecord where
  id : String
  description : String
  amount : ℚ
  payer : String
  participants : List (String × ℚ)
  split_strategy : String
  notes : String
  date : ℤ
  group_id : Option String

/-- A persisted (serialized) settlement record. -/
structure SettlementRecord where
  id : String
  payer : String
  payee : String
  amount : ℚ
  description : String
  date : ℤ
  notes : String

/-- Lookup `ExpenseManager._strategy_map.get(name)`. -/
def strategy_map (name : String) : Option SplitStrategy :=
  if name = "EqualSplit" then some .equalSplit
  else if name = "ExactSplit" then some .exactSplit
  else if name = "ShareSplit" then some .shareSplit
  else none

/-- From `core/services/manager.py`, `_deserialize_expense`; the error carries the unknown
tag (`ValueError(f"Unknown split strategy: {strat_name}")`). -/
def ExpenseManager.deserialize_expense (d : ExpenseRecord) :
    Except String Expense :=
  match strategy_map d.split_strategy with
  | none => .error d.split_strategy
  | some strat => .ok
      { id := d.id, description := d.description, amount := d.amount,
        payer := d.payer, participants := d.participants,
        split_strategy := strat, notes := d.notes, date := d.date,
        group_id := d.group_id }

/-- From `core/services/manager.py`, `_deserialize_settlement` (total). -/
def ExpenseManager.deserialize_settlement (d : SettlementRecord) : Settlement :=
  { id := d.id, payer := d.payer, payee := d.payee, amount := d.amount,
    description := d.description, date := d.date, notes := d.notes }

/-- The list comprehension
`[self._deserialize_expense(d) for d in self.cache.list_expenses()]`:
the first raised error aborts the whole traversal. -/
def deserializeExpenses : List ExpenseRecord → Except String (List Expense)
  | [] => .ok []
  | d :: t =>
    match ExpenseManager.deserialize_expense d with
    | .error s => .error s
    | .ok e =>
      match deserializeExpenses t with
      | .error s => .error s
      | .ok es => .ok (e :: es)

/-- A timeline entry, i.e. the `(date, kind, obj)` tuples of
`rebuild_ledger` (the date is recoverable from the object). -/
inductive Event
  | expense (e : Expense)
  | settlement (s : Settlement)

def Event.date : Event → ℤ
  | .expense e => e.date
  | .settlement s => s.date

/-- The sort key comparison of `timeline.sort(key=lambda t: t[0])`. -/
def eventLE (a b : Event) : Bool := a.date ≤ b.date

/-- Build the merged timeline: expenses appended first, then settlements,
then a stable sort ascending by date (Python's `list.sort` is stable). -/
def timeline (exps : List Expense) (sets : List Settlement) : List Event :=
  (exps.map Event.expense ++ sets.map Event.settlement).mergeSort eventLE

/-- Apply one timeline entry; `none` models an exception escaping from
`apply_expense` (a failing split). -/
def applyEvent (b : Bal) : Event → Option Bal
  | .expense e => (e.allocations).map
      (fun alloc => Ledger.apply_expense_alloc b e.payer alloc)
  | .settlement s => some (Ledger.apply_settlement b s.payer s.payee s.amount)

/-- The application loop of `rebuild_ledger`: on an exception the loop
stops, leaving the ledger at its partial state (`false` flag). -/
def runTimeline (b : Bal) : List Event → Bal × Bool
  | [] => (b, true)
  | e :: rest =>
    match applyEvent b e with
    | some b2 => runTimeline b2 rest
    | none => (b, false)

inductive RebuildError
  | unknownStrategy (name : String)
  | splitFailure

/-- The persisted state served by `CacheService.list_expenses` /
`list_settlements`. -/
structure Cache where
  expenses : List ExpenseRecord
  settlements : List SettlementRecord

/-- From `core/services/manager.py`, `rebuild_ledger`: reset the ledger, deserialize all
records (an unknown strategy tag aborts the rebuild with the ledger still
empty), merge into a date-sorted timeline and apply from the empty table.
The second component reports an escaped exception. -/
def ExpenseManager.rebuild_ledger (c : Cache) : Bal × Option RebuildError :=
  match deserializeExpenses c.expenses with
  | .error name => ([], some (.unknownStrategy name))
  | .ok exps =>
    match runTimeline []
      (timeline exps (c.settlements.map ExpenseManager.deserialize_settlement)) with
    | (b, true) => (b, none)
    | (b, false) => (b, some .splitFailure)

/-- The manager's state relevant to rebuilding: the cache contents and the
derived ledger. -/
structure ExpenseManager where
  cache : Cache
  ledger : Bal

/-- One `rebuild_ledger` call as a state transformer: the cache is
untouched, the ledger is recomputed from it alone. -/
def ExpenseManager.rebuild (m : ExpenseManager) : ExpenseManager :=
  { m with ledger := (ExpenseManager.rebuild_ledger m.cache).1 }

/-- Claim C8 — rebuild idempotence: rebuilding twice over the same
persisted history yields an identical balance table (the ledger is a
deterministic function of the cache contents alone). -/
theorem rebuild_idempotent (m : ExpenseManager) :
    (ExpenseManager.rebuild (ExpenseManager.rebuild m)).ledger =
      (ExpenseManager.rebuild m).ledger := rfl

lemma strategy_map_eq_none_iff (s : String) :
    strategy_map s = none ↔
      s ∉ (["EqualSplit", "ExactSplit", "ShareSplit"] : List String) := by
  unfold strategy_map
  split_ifs with h1 h2 h3
  · simp [h1]
  · simp [h2]
  · simp [h3]
  · simp [h1, h2, h3]

lemma deserializeExpenses_error_of_unknown (recs : List ExpenseRecord)
    (h : ∃ r ∈ recs, strategy_map r.split_strategy = none) :
    ∃ name, deserializeExpenses recs = .error name ∧ strategy_map name = none := by
  induction recs with
  | nil => simp at h
  | cons d t ih =>
    by_cases hd : strategy_map d.split_strategy = none
    · refine ⟨d.split_strategy, ?_, hd⟩
      simp only [deserializeExpenses, ExpenseManager.deserialize_expense, hd]
    · obtain ⟨r, hr, hrn⟩ := h
      rcases List.mem_cons.mp hr with rfl | hr'
      · exact absurd hrn hd
      · obtain ⟨name, hname, hnone⟩ := ih ⟨r, hr', hrn⟩
        refine ⟨name, ?_, hnone⟩
        simp only [deserializeExpenses]
        obtain ⟨strat, hstrat⟩ := Option.ne_none_iff_exists'.mp hd
        simp only [ExpenseManager.deserialize_expense, hstrat, hname]

/-- Claim C7 — unknown-split-mode abort: if any persisted expense record
carries a strategy tag outside {EqualSplit, ExactSplit, ShareSplit}, the
whole rebuild fails with an unknown-strategy error and the resulting
ledger is the freshly reset empty table — no event is applied, so no
partial ledger is produced. -/
theorem rebuild_unknown_mode_aborts (c : Cache)
    (h : ∃ r ∈ c.expenses, r.split_strategy ∉
      (["EqualSplit", "ExactSplit", "ShareSplit"] : List String)) :
    ∃ name, ExpenseManager.rebuild_ledger c =
      ([], some (RebuildError.unknownStrategy name)) ∧
      name ∉ (["EqualSplit", "ExactSplit", "ShareSplit"] : List String) := by
  obtain ⟨r, hr, hrn⟩ := h
  obtain ⟨name, hname, hnone⟩ := deserializeExpenses_error_of_unknown c.expenses
    ⟨r, hr, (strategy_map_eq_none_iff _).mpr hrn⟩
  refine ⟨name, ?_, (strategy_map_eq_none_iff _).mp hnone⟩
  simp only [ExpenseManager.rebuild_ledger, hname]

/-- Witness for C7: a cache holding one record with a bad strategy tag. -/
theorem rebuild_unknown_mode_aborts_witness :
    (∃ r ∈ (Cache.mk
        [⟨"e1", "d", 10, "you", [("you", 1)], "WeirdSplit", "", 3, none⟩]
        []).expenses,
      r.split_strategy ∉ (["EqualSplit", "ExactSplit", "ShareSplit"] : List String)) ∧
    ∃ name, ExpenseManager.rebuild_ledger (Cache.mk
        [⟨"e1", "d", 10, "you", [("you", 1)], "WeirdSplit", "", 3, none⟩] []) =
      ([], some (RebuildError.unknownStrategy name)) ∧
      name ∉ (["EqualSplit", "ExactSplit", "ShareSplit"] : List String) :=
  ⟨⟨⟨"e1", "d", 10, "you", [("you", 1)], "WeirdSplit", "", 3, none⟩,
      by simp, by decide⟩,
    rebuild_unknown_mode_aborts _
      ⟨⟨"e1", "d", 10, "you", [("you", 1)], "WeirdSplit", "", 3, none⟩,
        by simp, by decide⟩⟩

/-- Modelled from the spec's reconciliation algorithm (§4.3): the timeline
is sorted ascending by event timestamp, is a permutation of the merged
input (expenses in insertion order followed by settlements in insertion
order), and the sort is stable — any two events already date-ordered in
that input keep their relative order, so ties are broken by the original
insertion order. -/
def TimelineSpec (input tl : List Event) : Prop :=
  List.Pairwise (fun a b => a.date ≤ b.date) tl ∧
  tl.Perm input ∧
  ∀ a b : Event, List.Sublist [a, b] input → a.date ≤ b.date →
    List.Sublist [a, b] tl

/-- Claim C6 — rebuild timeline order: `rebuild_ledger` merges the
deserialized expenses and settlements into one timeline, stably sorted
ascending by timestamp (expenses and settlements interleaved by time, ties
kept in original insertion order with expenses first), and applies it to
an initially empty ledger in that order. -/
theorem rebuild_timeline_order (c : Cache) (exps : List Expense)
    (h : deserializeExpenses c.expenses = .ok exps) :
    TimelineSpec
      (exps.map Event.expense ++
        (c.settlements.map ExpenseManager.deserialize_settlement).map
          Event.settlement)
      (timeline exps (c.settlements.map ExpenseManager.deserialize_settlement)) ∧
    (ExpenseManager.rebuild_ledger c).1 =
      (runTimeline []
        (timeline exps
          (c.settlements.map ExpenseManager.deserialize_settlement))).1 := by
  have htrans : ∀ (a b c : Event), eventLE a b → eventLE b c → eventLE a c := by
    intro a b c hab hbc
    simp only [eventLE, decide_eq_true_eq] at hab hbc ⊢
    omega
  have htotal : ∀ (a b : Event), eventLE a b || eventLE b a := by
    intro a b
    simp only [eventLE, Bool.or_eq_true, decide_eq_true_eq]
    omega
  refine ⟨⟨?_, ?_, ?_⟩, ?_⟩
  · have hs := List.sorted_mergeSort htrans htotal
      (exps.map Event.expense ++
        (c.settlements.map ExpenseManager.deserialize_settlement).map
          Event.settlement)
    exact hs.imp (fun hab => by simpa [eventLE] using hab)
  · exact List.mergeSort_perm _ _
  · intro a b hsub hdate
    apply List.sublist_mergeSort htrans htotal
    · simp [List.pairwise_cons, eventLE, hdate]
    · exact hsub
  · simp only [ExpenseManager.rebuild_ledger, h]
    rcases hr : runTimeline []
      (timeline exps (c.settlements.map ExpenseManager.deserialize_settlement))
      with ⟨bb, flag⟩
    cases flag <;> simp [hr]

/-- A concrete persisted expense record used by the C6 witness. -/
def wExpenseRecord : ExpenseRecord :=
  ⟨"e1", "dinner", 90, "you", [("you", 1), ("sam", 1), ("lee", 1)],
    "EqualSplit", "", 5, none⟩

/-- The expense `wExpenseRecord` deserializes to. -/
def wExpense : Expense :=
  ⟨"e1", "dinner", 90, "you", [("you", 1), ("sam", 1), ("lee", 1)],
    SplitStrategy.equalSplit, "", 5, none⟩

/-- A concrete persisted settlement record used by the C6 witness. -/
def wSettlementRecord : SettlementRecord := ⟨"s1", "sam", "you", 20, "", 3, ""⟩

/-- A concrete cache with one expense and one earlier settlement. -/
def wCache : Cache := ⟨[wExpenseRecord], [wSettlementRecord]⟩

/-- Witness for C6 at `wCache`. -/
theorem rebuild_timeline_order_witness :
    deserializeExpenses wCache.expenses = .ok [wExpense] ∧
    (TimelineSpec
      ([wExpense].map Event.expense ++
        (wCache.settlements.map ExpenseManager.deserialize_settlement).map
          Event.settlement)
      (timeline [wExpense]
        (wCache.settlements.map ExpenseManager.deserialize_settlement)) ∧
    (ExpenseManager.rebuild_ledger wCache).1 =
      (runTimeline []
        (timeline [wExpense]
          (wCache.settlements.map ExpenseManager.deserialize_settlement))).1) :=
  ⟨by with_unfolding_all rfl,
    rebuild_timeline_order wCache [wExpense] (by with_unfolding_all rfl)⟩
